import Mathlib

/-!
# The LRU cache of `src/cache.c`

A shallow embedding of the cache of the web server: the doubly-linked recency
list (`dllist_insert_head`, `dllist_move_to_head`, `dllist_remove_tail`), the
public operations (`cache_create`, `cache_put`, `cache_get`, `cache_free`),
the calls `get_file` of `server.c` makes on them, and the memory they work on.

Pointers are `Option Nat`: `none` is `NULL`, `some a` is the address of the
`a`-th entry ever allocated.  Dereferencing `NULL`, an address that was never
allocated or a record that was freed is undefined behaviour in C; here the
operation returns `none`, so a result `some _` says that the C function ran to
its end without such an access.  Allocation is taken to succeed.  The `int`
fields `max_size`, `cur_size` and `content_length` are integers: the counter
is only ever raised by one from a value at most `max_size`.

The hash table behind `cache->index` is not among the sources; it is modelled
from the contract the specification gives for the key index.
-/

namespace CWebServer

/-- One byte of a payload. -/
abbrev byte := Fin 256

/-- The record `struct cache_entry`: the key (`path`), the content type, the
payload with its length, and the two links of the recency list. -/
structure cache_entry where
  path : String
  content_type : String
  content : List byte
  content_length : Int
  prev : Option Nat
  next : Option Nat
deriving DecidableEq, Repr

/-- The four allocations made by one call of `alloc_entry`: the record itself
(`malloc`), the copy of the path (`strdup`), the copy of the content type
(`strdup`) and the copy of the payload (`malloc` and `memcpy`).  Each flag
tells whether that allocation has not been freed yet. -/
structure block where
  entry : cache_entry
  entry_live : Bool
  path_live : Bool
  content_type_live : Bool
  content_live : Bool
deriving DecidableEq, Repr

/-- Modelled from the spec: the key index (`hashtable.h`, whose code is not
among the sources).  Section 4.3 gives its contract: `put(key, entryRef)`
overwrites any existing mapping for `key`, `get(key)` returns the entry
reference or absent, `delete(key)` is a no-op if the key is absent.  The index
is the list of its `(key, entry address)` pairs, at most one per key. -/
abbrev hashtable := List (String × Nat)

/-- Modelled from the spec: `create(sizeHint)` of the key index; a fresh index
is empty whatever the size hint. -/
def hashtable_create (_size : Int) : hashtable := []

/-- Modelled from the spec: `get(key) -> entryRef or absent` of the key
index. -/
def hashtable_get : hashtable → String → Option Nat
  | [], _ => none
  | (k, v) :: rest, key => if k = key then some v else hashtable_get rest key

/-- Modelled from the spec: `delete(key) -> void` of the key index, a no-op if
the key is absent. -/
def hashtable_delete : hashtable → String → hashtable
  | [], _ => []
  | (k, v) :: rest, key =>
    if k = key then hashtable_delete rest key else (k, v) :: hashtable_delete rest key

/-- Modelled from the spec: `put(key, entryRef)` of the key index, which
overwrites any existing mapping for `key`. -/
def hashtable_put (ht : hashtable) (key : String) (data : Nat) : hashtable :=
  (key, data) :: hashtable_delete ht key

/-- The record `struct cache` together with the memory its pointers refer to:
`heap` holds every entry allocated so far, the entry at address `a` being
`heap[a]`. -/
structure cache where
  max_size : Int
  cur_size : Int
  head : Option Nat
  tail : Option Nat
  index : hashtable
  heap : List block
deriving DecidableEq, Repr

/-- Read through an entry pointer (`p->field`): undefined for `NULL`, for an
address never allocated and for a freed record. -/
def deref (heap : List block) (p : Option Nat) : Option cache_entry :=
  match p with
  | none => none
  | some a =>
    match heap[a]? with
    | none => none
    | some b => if b.entry_live then some b.entry else none

/-- Write through an entry pointer (`p->field = v`): `f` changes the fields;
undefined where `deref` is. -/
def store (heap : List block) (p : Option Nat) (f : cache_entry → cache_entry) :
    Option (List block) :=
  match p with
  | none => none
  | some a =>
    match heap[a]? with
    | none => none
    | some b =>
      if b.entry_live then some (heap.set a { b with entry := f b.entry }) else none

/-- The record built by `alloc_entry` with its four allocations: copies of
the path, of the content type and of the first `content_length` bytes of the
caller's buffer, both links `NULL`. -/
def new_block (path content_type : String) (content : List byte) (content_length : Int) :
    block :=
  { entry := { path := path, content_type := content_type,
               content := content.take content_length.toNat,
               content_length := content_length,
               prev := none, next := none },
    entry_live := true, path_live := true, content_type_live := true, content_live := true }

/-- The function `alloc_entry`: the new record gets the next unused address. -/
def alloc_entry (heap : List block) (path content_type : String) (content : List byte)
    (content_length : Int) : List block × Option Nat :=
  (heap ++ [new_block path content_type content content_length], some heap.length)

/-- The call `free(p)` on an entry record: the record is released, its three
buffers are not.  `free(NULL)` does nothing; freeing an unallocated address or
freeing twice is undefined. -/
def free (heap : List block) (p : Option Nat) : Option (List block) :=
  match p with
  | none => some heap
  | some a =>
    match heap[a]? with
    | none => none
    | some b =>
      if b.entry_live then some (heap.set a { b with entry_live := false }) else none

/-- The function `dllist_insert_head`. -/
def dllist_insert_head (c : cache) (ce : Option Nat) : Option cache :=
  if c.head = none then do
    -- cache->head = cache->tail = ce; ce->prev = ce->next = NULL;
    let h1 ← store c.heap ce (fun e => { e with next := none })
    let h2 ← store h1 ce (fun e => { e with prev := none })
    pure { c with head := ce, tail := ce, heap := h2 }
  else do
    -- cache->head->prev = ce;
    let h1 ← store c.heap c.head (fun e => { e with prev := ce })
    -- ce->next = cache->head;
    let h2 ← store h1 ce (fun e => { e with next := c.head })
    -- ce->prev = NULL;
    let h3 ← store h2 ce (fun e => { e with prev := none })
    -- cache->head = ce;
    pure { c with head := ce, heap := h3 }

/-- The function `dllist_move_to_head`. -/
def dllist_move_to_head (c : cache) (ce : Option Nat) : Option cache :=
  if ce ≠ c.head then do
    let c1 ←
      if ce = c.tail then do
        -- cache->tail = ce->prev;
        let e ← deref c.heap ce
        -- cache->tail->next = NULL;
        let h1 ← store c.heap e.prev (fun t => { t with next := none })
        pure { c with tail := e.prev, heap := h1 }
      else do
        -- ce->prev->next = ce->next;
        let e ← deref c.heap ce
        let h1 ← store c.heap e.prev (fun p => { p with next := e.next })
        -- ce->next->prev = ce->prev;
        let e1 ← deref h1 ce
        let h2 ← store h1 e1.next (fun n => { n with prev := e1.prev })
        pure { c with heap := h2 }
    -- ce->next = cache->head;
    let h3 ← store c1.heap ce (fun e => { e with next := c1.head })
    -- cache->head->prev = ce;
    let h4 ← store h3 c1.head (fun e => { e with prev := ce })
    -- ce->prev = NULL;
    let h5 ← store h4 ce (fun e => { e with prev := none })
    -- cache->head = ce;
    pure { c1 with head := ce, heap := h5 }
  else
    pure c

/-- The function `dllist_remove_tail`: returns the cache and the old tail. -/
def dllist_remove_tail (c : cache) : Option (cache × Option Nat) := do
  let oldtail := c.tail
  -- cache->tail = oldtail->prev;
  let e ← deref c.heap oldtail
  -- cache->tail->next = NULL;
  let h1 ← store c.heap e.prev (fun t => { t with next := none })
  -- cache->cur_size--;
  pure ({ c with tail := e.prev, heap := h1, cur_size := c.cur_size - 1 }, oldtail)

/-- The function `cache_create`. -/
def cache_create (max_size hashsize : Int) : cache :=
  { max_size := max_size, cur_size := 0, head := none, tail := none,
    index := hashtable_create hashsize, heap := [] }

/-- The eviction loop of `cache_put`,
`while (cache->cur_size > cache->max_size) { ... }`, run for at most `fuel`
rounds; `none` also when the fuel runs out with the loop condition still
true. -/
def evict_loop : Nat → cache → Option cache
  | 0, c => if c.cur_size > c.max_size then none else some c
  | fuel + 1, c =>
    if c.cur_size > c.max_size then do
      -- c_entry = dllist_remove_tail(cache);
      let (c1, c_entry) ← dllist_remove_tail c
      -- hashtable_delete(cache->index, c_entry->path);
      let e ← deref c1.heap c_entry
      let c2 := { c1 with index := hashtable_delete c1.index e.path }
      -- free(c_entry);
      let h ← free c2.heap c_entry
      evict_loop fuel { c2 with heap := h }
    else
      some c

/-- The function `cache_put`.  Every round of the eviction loop lowers
`cur_size` by one and leaves `max_size` alone, so the loop makes
`cur_size - max_size` rounds when that is positive and none otherwise: this is
the fuel given to `evict_loop`. -/
def cache_put (c : cache) (path content_type : String) (content : List byte)
    (content_length : Int) : Option cache := do
  -- struct cache_entry *c_entry = alloc_entry(path, content_type, content, content_length);
  let (h, c_entry) := alloc_entry c.heap path content_type content content_length
  -- dllist_insert_head(cache, c_entry);
  let c1 ← dllist_insert_head { c with heap := h } c_entry
  -- hashtable_put(cache->index, path, c_entry);
  let a ← c_entry
  let c2 := { c1 with index := hashtable_put c1.index path a }
  -- ++cache->cur_size;
  let c3 := { c2 with cur_size := c2.cur_size + 1 }
  evict_loop (c3.cur_size - c3.max_size).toNat c3

/-- The function `cache_get`: returns the cache and the entry pointer found,
`NULL` on a miss. -/
def cache_get (c : cache) (path : String) : Option (cache × Option Nat) :=
  -- struct cache_entry *c_entry = hashtable_get(cache->index, path);
  let c_entry := hashtable_get c.index path
  if c_entry ≠ none then do
    -- dllist_move_to_head(cache, c_entry);
    let c1 ← dllist_move_to_head c c_entry
    pure (c1, c_entry)
  else
    pure (c, c_entry)

/-- A call of one of the two public operations on an existing cache. -/
inductive call where
  | put (path content_type : String) (content : List byte) (content_length : Int)
  | get (path : String)
deriving DecidableEq, Repr

/-- Make one call. -/
def step (c : cache) : call → Option cache
  | .put path content_type content content_length =>
    cache_put c path content_type content content_length
  | .get path => (cache_get c path).map Prod.fst

/-- Make the calls of a list one after the other. -/
def run : cache → List call → Option cache
  | c, [] => some c
  | c, x :: rest => (step c x).bind (fun c1 => run c1 rest)

/-- The addresses met when following `next` links from `p`, for at most
`fuel` entries. -/
def walk_next (heap : List block) : Nat → Option Nat → List Nat
  | 0, _ => []
  | _, none => []
  | fuel + 1, some a =>
    match deref heap (some a) with
    | none => [a]
    | some e => a :: walk_next heap fuel e.next

/-- The recency list of a cache, head first: the addresses met by walking the
`next` links from `head`.  A list without a cycle has no more entries than
were ever allocated. -/
def entries (c : cache) : List Nat := walk_next c.heap c.heap.length c.head

/-- The key of the entry at an address. -/
def key_at (c : cache) (a : Nat) : Option String := (c.heap[a]?).map (fun b => b.entry.path)

/-- The keys of the recency list, head first. -/
def list_keys (c : cache) : List String := (entries c).filterMap (key_at c)

/-- The keys the index maps. -/
def index_keys (c : cache) : List String := c.index.map Prod.fst


/-- The entry before `x` in the list `l`, `p` standing before the first. -/
def prev_in (p : Option Nat) : List Nat → Nat → Option Nat
  | [], _ => none
  | y :: r, x => if y = x then p else prev_in (some y) r x

/-- The first entry of a list, `n` when there is none. -/
def head_or : List Nat → Option Nat → Option Nat
  | [], n => n
  | z :: _, _ => some z

/-- The last entry of a list, `p` when there is none. -/
def last_or : List Nat → Option Nat → Option Nat
  | [], p => p
  | [z], _ => some z
  | _ :: y :: r, p => last_or (y :: r) p

/-- The entry after `x` in the list `l`, `n` standing after the last. -/
def next_in : List Nat → Nat → Option Nat → Option Nat
  | [], _, _ => none
  | y :: r, x, n => if y = x then head_or r n else next_in r x n

/-- The heap after a write through a valid pointer: the fields of the entry at
`a` changed by `f`. -/
def modify_entry (heap : List block) (a : Nat) (f : cache_entry → cache_entry) : List block :=
  match heap[a]? with
  | none => heap
  | some b => heap.set a { b with entry := f b.entry }

/-- The heap after `free` of the record at `a`. -/
def release_entry (heap : List block) (a : Nat) : List block :=
  match heap[a]? with
  | none => heap
  | some b => heap.set a { b with entry_live := false }

/-- The record at `a` is allocated and not freed. -/
def is_live (heap : List block) (a : Nat) : Prop :=
  ∃ b, heap[a]? = some b ∧ b.entry_live = true

/-- What an entry holds for its caller: key, content type, payload and
length. -/
def payload_of (b : block) : String × String × List byte × Int :=
  (b.entry.path, b.entry.content_type, b.entry.content, b.entry.content_length)

/-- The heap holds the doubly-linked list `l`, head first: the entries are
pairwise distinct live records, and the `prev` and `next` links of each are
its neighbours in `l`, `NULL` at the two ends. -/
def linked (heap : List block) (l : List Nat) : Prop :=
  l.Nodup ∧ ∀ a ∈ l, ∃ b, heap[a]? = some b ∧ b.entry_live = true ∧
    b.entry.prev = prev_in none l a ∧ b.entry.next = next_in l a none

/-- The state of a cache whose recency list is `l`, head first: `head` and
`tail` are the two ends of `l`, `cur_size` is its length and within the
capacity, and the index maps a key only to an entry of `l` with that key. -/
structure inv (c : cache) (l : List Nat) : Prop where
  links : linked c.heap l
  head_eq : c.head = l.head?
  tail_eq : c.tail = l.getLast?
  size_eq : c.cur_size = l.length
  cap_pos : 1 ≤ c.max_size
  size_le : c.cur_size ≤ c.max_size
  index_sound : ∀ k a, hashtable_get c.index k = some a → a ∈ l ∧ key_at c a = some k

/-- A block with the two links of its entry cleared: what is left is what the
list operations never change. -/
def unlinked (b : block) : block :=
  { b with entry := { b.entry with prev := none, next := none } }

/-- The states a cache can be in: those reached from `cache_create` with a
capacity of at least one by a finite sequence of `cache_put` and `cache_get`
calls. -/
def reachable (c : cache) : Prop :=
  ∃ (max_size hashsize : Int) (calls : List call),
    1 ≤ max_size ∧ run (cache_create max_size hashsize) calls = some c

/-- The entry a pointer leads to, for the caller of `cache_get`: key, content
type, payload and length; `none` for `NULL` and for a pointer that must not be
read. -/
def read_entry (c : cache) (p : Option Nat) : Option (String × String × List byte × Int) :=
  (deref c.heap p).map (fun e => (e.path, e.content_type, e.content, e.content_length))

/-- A sequence of calls used to instantiate the theorems: two puts and a get
on a cache of capacity two. -/
def sample_calls : List call :=
  [call.put "/a" "text/html" [60, 97, 62] 3, call.put "/b" "text/plain" [98] 1, call.get "/a"]

/-- The cache after `sample_calls` on a new cache of capacity two. -/
def sample_cache : cache := (run (cache_create 2 0) sample_calls).getD (cache_create 2 0)

/-- The cache after one more `cache_get` of `"/b"` on `sample_cache`. -/
def sample_hit : cache := ((cache_get sample_cache "/b").getD (sample_cache, none)).1

/-- The list and the index agree: besides the invariant, every entry of the
list is the one the index maps its key to, and the index holds one pair per
key. -/
def agree (c : cache) (l : List Nat) : Prop :=
  inv c l ∧ (∀ a ∈ l, ∃ k, key_at c a = some k ∧ hashtable_get c.index k = some a) ∧
    (c.index.map Prod.fst).Nodup

/-- The discipline of `get_file` in `server.c`, which calls `cache_put` for a
path only after `cache_get` missed on it: every `cache_put` of the sequence is
given a key that the index does not map at the time of the call. -/
def fresh_puts : cache → List call → Bool
  | _, [] => true
  | c, call.put k t d n :: rest =>
    (hashtable_get c.index k).isNone &&
      (match cache_put c k t d n with
       | none => true
       | some c1 => fresh_puts c1 rest)
  | c, call.get k :: rest =>
    (match cache_get c k with
     | none => true
     | some r => fresh_puts r.1 rest)

/-- The call `cache_put` with the four arguments of an item. -/
def put_call (i : String × String × List byte × Int) : call :=
  call.put i.1 i.2.1 i.2.2.1 i.2.2.2

/-- The addresses met when following `prev` links from `p`, for at most
`fuel` entries. -/
def walk_prev (heap : List block) : Nat → Option Nat → List Nat
  | 0, _ => []
  | _, none => []
  | fuel + 1, some a =>
    match deref heap (some a) with
    | none => [a]
    | some e => a :: walk_prev heap fuel e.prev

/-- The pointer facts of a well-formed doubly-linked list: `head->prev` and
`tail->next` are `NULL`, every entry `e` met from `head` can be read and, when
`e->next` is not `NULL`, `e->next->prev` is `e`, and the walk along `prev`
from `tail` meets the entries of the walk along `next` from `head` in the
reverse order. -/
def dll_props (c : cache) : Prop :=
  (∀ a, c.head = some a → ∃ e, deref c.heap (some a) = some e ∧ e.prev = none) ∧
  (∀ a, c.tail = some a → ∃ e, deref c.heap (some a) = some e ∧ e.next = none) ∧
  (∀ a ∈ entries c, ∃ e, deref c.heap (some a) = some e ∧
    ∀ n, e.next = some n → ∃ en, deref c.heap (some n) = some en ∧ en.prev = some a) ∧
  walk_prev c.heap c.heap.length c.tail = (entries c).reverse

/-- The list of a cache is a doubly-linked list: there is a list `l` of
pairwise distinct live entries whose ends are `head` and `tail` and in which
the links of every entry are its two neighbours. -/
def well_linked (c : cache) : Prop :=
  ∃ l, linked c.heap l ∧ c.head = l.head? ∧ c.tail = l.getLast?

/-- One round of the eviction loop of `cache_put`: the body of the `while`. -/
def evict_round (c : cache) : Option cache := do
  -- c_entry = dllist_remove_tail(cache);
  let (c1, c_entry) ← dllist_remove_tail c
  -- hashtable_delete(cache->index, c_entry->path);
  let e ← deref c1.heap c_entry
  let c2 := { c1 with index := hashtable_delete c1.index e.path }
  -- free(c_entry);
  let h ← free c2.heap c_entry
  pure { c2 with heap := h }

/-- The states on which the eviction loop calls `dllist_remove_tail`, in the
order of the calls: one for every round whose loop condition holds. -/
def evict_calls : Nat → cache → List cache
  | 0, c => if c.cur_size > c.max_size then [c] else []
  | fuel + 1, c =>
    if c.cur_size > c.max_size then
      c :: (match evict_round c with
            | none => []
            | some c1 => evict_calls fuel c1)
    else []

/-- The state of `cache_put` when it reaches its eviction loop: the new entry
is at the head and in the index, and `cur_size` is raised. -/
def put_before_loop (c : cache) (path content_type : String) (content : List byte)
    (content_length : Int) : Option cache := do
  let (h, c_entry) := alloc_entry c.heap path content_type content content_length
  let c1 ← dllist_insert_head { c with heap := h } c_entry
  let a ← c_entry
  let c2 := { c1 with index := hashtable_put c1.index path a }
  pure { c2 with cur_size := c2.cur_size + 1 }

/-- The states on which one call of `cache_put` calls `dllist_remove_tail`. -/
def remove_tail_calls (c : cache) (path content_type : String) (content : List byte)
    (content_length : Int) : List cache :=
  match put_before_loop c path content_type content content_length with
  | none => []
  | some c3 => evict_calls (c3.cur_size - c3.max_size).toNat c3

/-- The state and the entry on which one call of `cache_get` calls
`dllist_move_to_head`: none on a miss. -/
def move_to_head_calls (c : cache) (path : String) : List (cache × Option Nat) :=
  if hashtable_get c.index path ≠ none then [(c, hashtable_get c.index path)] else []

/-- The function `free_entry`: the payload, the content type, the path and
the record are released, in this order.  Undefined for `NULL`, for a record
that cannot be read and when one of the four was released before. -/
def free_entry (heap : List block) (entry : Option Nat) : Option (List block) :=
  match entry with
  | none => none
  | some a =>
    match heap[a]? with
    | none => none
    | some b =>
      if b.entry_live && b.content_live && b.content_type_live && b.path_live then
        some (heap.set a { b with content_live := false, content_type_live := false,
                                  path_live := false, entry_live := false })
      else none

/-- The loop of `cache_free` over the list, from `cur_entry`, for at most
`fuel` entries; `none` also when the fuel runs out before `NULL` is met. -/
def cache_free_loop : Nat → List block → Option Nat → Option (List block)
  | _, heap, none => some heap
  | 0, _, some _ => none
  | fuel + 1, heap, some a => do
    -- struct cache_entry *next_entry = cur_entry->next;
    let e ← deref heap (some a)
    -- free_entry(cur_entry);
    let h ← free_entry heap (some a)
    -- cur_entry = next_entry;
    cache_free_loop fuel h e.next

/-- The function `cache_free`: the index and the record of the cache are
released with the cache itself; the result is what is left of the memory of
the entries.  A list without a cycle has no more entries than were ever
allocated, which is the fuel of the loop. -/
def cache_free (c : cache) : Option (List block) :=
  cache_free_loop c.heap.length c.heap c.head

/-- The number of allocations of a block that were not released. -/
def live_in (b : block) : Nat :=
  b.entry_live.toNat + b.path_live.toNat + b.content_type_live.toNat + b.content_live.toNat

/-- The number of allocations made by `alloc_entry` that were not released. -/
def live_allocations (heap : List block) : Nat := (heap.map live_in).sum

/-- The calls `get_file` of `server.c` makes on the cache for one file path:
`cache_get`; on a hit nothing more; on a miss the file is loaded (`file` is
what `file_load` and `mime_type_get` give, `none` when the file cannot be
loaded) and, when it was loaded, `cache_put`.  Sending the response is left
out, and the retry of `"/"` with `"/index.html"` is one more pass with that
path. -/
def get_file (c : cache) (filepath : String) (file : Option (String × List byte × Int)) :
    Option cache :=
  match cache_get c filepath with
  | none => none
  | some (c1, some _) => some c1
  | some (c1, none) =>
    match file with
    | none => some c1
    | some (mime_type, data, size) => cache_put c1 filepath mime_type data size

/-- Serve the requests of a list one after the other. -/
def serve : cache → List (String × Option (String × List byte × Int)) → Option cache
  | c, [] => some c
  | c, r :: rest => (get_file c r.1 r.2).bind (fun c1 => serve c1 rest)

/-- The reference model of one request on the list of keys, most recent
first: on a hit `k` moves to the front; on a miss `k` is put in front and the
last key is dropped if the length exceeds `max_size`; a miss that is not
followed by a put, the file not being loaded, changes nothing. -/
def lru_ref_step (max_size : Int) (ks : List String)
    (r : String × Option (String × List byte × Int)) : List String :=
  if r.1 ∈ ks then r.1 :: ks.erase r.1
  else
    match r.2 with
    | none => ks
    | some _ => if ((r.1 :: ks).length : Int) > max_size then (r.1 :: ks).dropLast else r.1 :: ks

/-- The reference model of a sequence of requests, from the empty list. -/
def lru_ref (max_size : Int) (reqs : List (String × Option (String × List byte × Int))) :
    List String :=
  reqs.foldl (lru_ref_step max_size) []

/-! ## Lists of addresses -/

theorem head_or_eq (l : List Nat) (n : Option Nat) {z : Nat} (h : l.head? = some z) :
    head_or l n = some z := by
  cases l with
  | nil => simp at h
  | cons y r => simpa [head_or] using h

theorem last_or_eq (l : List Nat) (p : Option Nat) {z : Nat} (h : l.getLast? = some z) :
    last_or l p = some z := by
  induction l with
  | nil => simp at h
  | cons y r ih =>
    cases r with
    | nil => simpa [last_or] using h
    | cons y2 r2 =>
      rw [List.getLast?_cons_cons] at h
      simpa [last_or] using ih h

theorem last_or_cons (y : Nat) (r : List Nat) (p q : Option Nat) :
    last_or (y :: r) p = last_or (y :: r) q := by
  induction r generalizing y with
  | nil => rfl
  | cons z r2 ih => simpa [last_or] using ih z

theorem prev_in_append_left (p : Option Nat) (l1 l2 : List Nat) (x : Nat) (h : x ∈ l1) :
    prev_in p (l1 ++ l2) x = prev_in p l1 x := by
  induction l1 generalizing p with
  | nil => simp at h
  | cons y r ih =>
    simp only [List.cons_append, prev_in]
    by_cases hy : y = x
    · simp [hy]
    · simp only [hy, if_false]
      exact ih _ (by simpa [Ne.symm hy] using h)

theorem prev_in_append_right (p : Option Nat) (l1 l2 : List Nat) (x : Nat) (h : x ∉ l1) :
    prev_in p (l1 ++ l2) x = prev_in (last_or l1 p) l2 x := by
  induction l1 generalizing p with
  | nil => simp [last_or]
  | cons y r ih =>
    have hy : y ≠ x := fun e => h (by simp [e])
    have hr : x ∉ r := fun e => h (by simp [e])
    simp only [List.cons_append, prev_in, hy, if_false]
    refine (ih _ hr).trans ?_
    cases r with
    | nil => rfl
    | cons z r2 =>
      rw [last_or_cons z r2 (some y) p]
      rfl

theorem prev_in_head_ne (p q : Option Nat) (l : List Nat) (x : Nat) (h : l.head? ≠ some x) :
    prev_in p l x = prev_in q l x := by
  cases l with
  | nil => rfl
  | cons y r =>
    have hy : y ≠ x := fun e => h (by simp [e])
    simp [prev_in, hy]

theorem prev_in_head (p : Option Nat) (l : List Nat) (x : Nat) (h : l.head? = some x) :
    prev_in p l x = p := by
  cases l with
  | nil => simp at h
  | cons y r =>
    simp at h
    simp [prev_in, h]

theorem next_in_append_left (l1 l2 : List Nat) (x : Nat) (n : Option Nat) (h : x ∈ l1) :
    next_in (l1 ++ l2) x n = next_in l1 x (head_or l2 n) := by
  induction l1 with
  | nil => simp at h
  | cons y r ih =>
    simp only [List.cons_append, next_in]
    by_cases hy : y = x
    · simp only [hy, if_true]
      cases r with
      | nil => cases l2 <;> rfl
      | cons z r2 => rfl
    · simp only [hy, if_false]
      exact ih (by simpa [Ne.symm hy] using h)

theorem next_in_append_right (l1 l2 : List Nat) (x : Nat) (n : Option Nat) (h : x ∉ l1) :
    next_in (l1 ++ l2) x n = next_in l2 x n := by
  induction l1 with
  | nil => rfl
  | cons y r ih =>
    have hy : y ≠ x := fun e => h (by simp [e])
    have hr : x ∉ r := fun e => h (by simp [e])
    simp only [List.cons_append, next_in, hy, if_false]
    exact ih hr

theorem next_in_last_ne (l : List Nat) (x : Nat) (n m : Option Nat) (h : l.getLast? ≠ some x) :
    next_in l x n = next_in l x m := by
  induction l with
  | nil => rfl
  | cons y r ih =>
    simp only [next_in]
    by_cases hy : y = x
    · simp only [hy, if_true]
      cases r with
      | nil => simp [hy] at h
      | cons z r2 => rfl
    · simp only [hy, if_false]
      cases r with
      | nil => rfl
      | cons z r2 =>
        apply ih
        simpa [List.getLast?_cons_cons] using h

theorem next_in_last (l : List Nat) (x : Nat) (n : Option Nat) (hnd : l.Nodup)
    (h : l.getLast? = some x) : next_in l x n = n := by
  induction l with
  | nil => simp at h
  | cons y r ih =>
    cases r with
    | nil =>
      simp at h
      simp [next_in, head_or, h]
    | cons z r2 =>
      rw [List.getLast?_cons_cons] at h
      have hx : x ∈ z :: r2 := List.mem_of_getLast?_eq_some h
      have hy : y ≠ x := by
        intro e
        rw [List.nodup_cons] at hnd
        exact hnd.1 (e ▸ hx)
      simp only [next_in, hy, if_false]
      have := ih (List.nodup_cons.mp hnd).2 h
      simpa [next_in] using this


/-! ## The heap -/

theorem get_modify_entry (heap : List block) (a x : Nat) (f : cache_entry → cache_entry) :
    (modify_entry heap a f)[x]? =
      if x = a then (heap[a]?).map (fun b => { b with entry := f b.entry }) else heap[x]? := by
  unfold modify_entry
  cases h : heap[a]? with
  | none =>
    by_cases hx : x = a
    · simp [hx, h]
    · simp [hx]
  | some b =>
    by_cases hx : x = a
    · subst hx
      have hlt : x < heap.length := by
        rcases List.getElem?_eq_some.mp h with ⟨hl, _⟩
        exact hl
      simp [List.getElem?_set, hlt]
    · simp [hx, List.getElem?_set, Ne.symm hx]

theorem get_release_entry (heap : List block) (a x : Nat) :
    (release_entry heap a)[x]? =
      if x = a then (heap[a]?).map (fun b => { b with entry_live := false }) else heap[x]? := by
  unfold release_entry
  cases h : heap[a]? with
  | none =>
    by_cases hx : x = a
    · simp [hx, h]
    · simp [hx]
  | some b =>
    by_cases hx : x = a
    · subst hx
      have hlt : x < heap.length := by
        rcases List.getElem?_eq_some.mp h with ⟨hl, _⟩
        exact hl
      simp [List.getElem?_set, hlt]
    · simp [hx, List.getElem?_set, Ne.symm hx]

theorem length_modify_entry (heap : List block) (a : Nat) (f : cache_entry → cache_entry) :
    (modify_entry heap a f).length = heap.length := by
  unfold modify_entry
  cases heap[a]? <;> simp

theorem length_release_entry (heap : List block) (a : Nat) :
    (release_entry heap a).length = heap.length := by
  unfold release_entry
  cases heap[a]? <;> simp

theorem is_live_modify_entry (heap : List block) (a x : Nat) (f : cache_entry → cache_entry) :
    is_live (modify_entry heap a f) x ↔ is_live heap x := by
  unfold is_live
  rw [get_modify_entry]
  by_cases hx : x = a
  · subst hx
    cases h : heap[x]? with
    | none => simp
    | some b => simp
  · simp [hx]

theorem deref_live (heap : List block) (a : Nat) (b : block) (h : heap[a]? = some b)
    (hl : b.entry_live = true) : deref heap (some a) = some b.entry := by
  simp [deref, h, hl]

theorem store_live (heap : List block) (a : Nat) (f : cache_entry → cache_entry)
    (h : is_live heap a) : store heap (some a) f = some (modify_entry heap a f) := by
  rcases h with ⟨b, hb, hl⟩
  simp [store, modify_entry, hb, hl]

theorem free_live (heap : List block) (a : Nat) (h : is_live heap a) :
    free heap (some a) = some (release_entry heap a) := by
  rcases h with ⟨b, hb, hl⟩
  simp [free, release_entry, hb, hl]

theorem linked_live {heap : List block} {l : List Nat} (h : linked heap l) {a : Nat}
    (ha : a ∈ l) : is_live heap a := by
  rcases h.2 a ha with ⟨b, hb, hl, _⟩
  exact ⟨b, hb, hl⟩

theorem linked_lt {heap : List block} {l : List Nat} (h : linked heap l) {a : Nat}
    (ha : a ∈ l) : a < heap.length := by
  rcases h.2 a ha with ⟨b, hb, _⟩
  rcases List.getElem?_eq_some.mp hb with ⟨hl, _⟩
  exact hl

theorem linked_length_le {heap : List block} {l : List Nat} (h : linked heap l) :
    l.length ≤ heap.length := by
  have hsub : l ⊆ List.range heap.length := by
    intro a ha
    exact List.mem_range.mpr (linked_lt h ha)
  have := (List.subperm_of_subset h.1 hsub).length_le
  simpa using this

theorem get_modify_entry_map (heap : List block) (a x : Nat) (f : cache_entry → cache_entry) :
    (modify_entry heap a f)[x]? =
      (heap[x]?).map (fun b => if x = a then { b with entry := f b.entry } else b) := by
  rw [get_modify_entry]
  by_cases hx : x = a
  · subst hx
    simp
  · simp [hx]

/-! ## The three list operations -/

theorem map_unlinked_modify_entry (heap : List block) (a : Nat) (f : cache_entry → cache_entry)
    (hf : ∀ e, { f e with prev := none, next := none } = { e with prev := none, next := none }) :
    (modify_entry heap a f).map unlinked = heap.map unlinked := by
  apply List.ext_getElem?
  intro x
  simp only [List.getElem?_map, get_modify_entry]
  by_cases hx : x = a
  · subst hx
    cases h : heap[x]? with
    | none => simp
    | some b => simp [unlinked, hf]
  · simp [hx]

theorem is_live_of_map_unlinked {h h' : List block} (e : h'.map unlinked = h.map unlinked)
    (x : Nat) : is_live h' x ↔ is_live h x := by
  have hx : (h'.map unlinked)[x]? = (h.map unlinked)[x]? := by rw [e]
  simp only [List.getElem?_map] at hx
  unfold is_live
  cases h1 : h'[x]? with
  | none =>
    cases h2 : h[x]? with
    | none => simp
    | some b => simp [h1, h2] at hx
  | some b' =>
    cases h2 : h[x]? with
    | none => simp [h1, h2] at hx
    | some b =>
      simp only [h1, h2, Option.map_some', Option.some.injEq] at hx
      have : b'.entry_live = b.entry_live := by
        have := congrArg block.entry_live hx
        simpa [unlinked] using this
      simp [this]

theorem payload_of_map_unlinked {h h' : List block} (e : h'.map unlinked = h.map unlinked) :
    h'.map payload_of = h.map payload_of := by
  have hp : ∀ l : List block, l.map payload_of = (l.map unlinked).map payload_of := by
    intro l
    rw [List.map_map]
    rfl
  rw [hp h', hp h, e]

theorem insert_head_linked (c : cache) (l : List Nat) (a : Nat)
    (hl : linked c.heap l) (hh : c.head = l.head?) (ht : c.tail = l.getLast?)
    (ha : a ∉ l) (hlive : is_live c.heap a) :
    ∃ c1, dllist_insert_head c (some a) = some c1 ∧ linked c1.heap (a :: l) ∧
      c1.head = some a ∧ c1.tail = (a :: l).getLast? ∧ c1.max_size = c.max_size ∧
      c1.cur_size = c.cur_size ∧ c1.index = c.index ∧
      c1.heap.map unlinked = c.heap.map unlinked := by
  cases l with
  | nil =>
    simp only [List.head?_nil] at hh
    have hl2 : is_live (modify_entry c.heap a fun e => { e with next := none }) a :=
      (is_live_modify_entry _ _ _ _).mpr hlive
    refine ⟨{ c with head := some a, tail := some a,
                     heap := modify_entry (modify_entry c.heap a fun e => { e with next := none })
                       a fun e => { e with prev := none } },
      by simp [dllist_insert_head, hh, store_live _ _ _ hlive, store_live _ _ _ hl2],
      ?_, rfl, by simp, rfl, rfl, rfl, ?_⟩
    · refine ⟨by simp, ?_⟩
      intro x hx
      simp only [List.mem_singleton] at hx
      subst hx
      rcases hlive with ⟨b, hb, hbl⟩
      simp [get_modify_entry, hb, hbl, prev_in, next_in, head_or]
    · simp [map_unlinked_modify_entry]
  | cons hd r =>
    simp only [List.head?_cons] at hh
    have hhd : is_live c.heap hd := linked_live hl (List.mem_cons_self _ _)
    have hl1 : is_live (modify_entry c.heap hd fun e => { e with prev := some a }) a :=
      (is_live_modify_entry _ _ _ _).mpr hlive
    have hl2 : is_live (modify_entry (modify_entry c.heap hd fun e => { e with prev := some a })
        a fun e => { e with next := some hd }) a :=
      (is_live_modify_entry _ _ _ _).mpr hl1
    refine ⟨{ c with head := some a,
                     heap := modify_entry (modify_entry
                       (modify_entry c.heap hd fun e => { e with prev := some a })
                       a fun e => { e with next := some hd }) a fun e => { e with prev := none } },
      by simp [dllist_insert_head, hh, store_live _ _ _ hhd, store_live _ _ _ hl1,
        store_live _ _ _ hl2], ?_, rfl, ?_, rfl, rfl, rfl, ?_⟩
    · refine ⟨List.nodup_cons.mpr ⟨ha, hl.1⟩, ?_⟩
      intro x hx
      have hane : a ≠ hd := fun e => ha (by simp [e])
      by_cases hxa : x = a
      · subst hxa
        rcases hlive with ⟨b, hb, hbl⟩
        simp [get_modify_entry, hb, hbl, prev_in, next_in, head_or, hane]
      · have hxl : x ∈ hd :: r := by simpa [hxa] using hx
        rcases hl.2 x hxl with ⟨b, hb, hbl, hp, hn⟩
        by_cases hxh : x = hd
        · subst hxh
          simp [get_modify_entry, hb, hbl, prev_in, next_in, hxa, Ne.symm hxa]
          simpa [next_in] using hn
        · simp [get_modify_entry, hb, hbl, prev_in, next_in, hxa, Ne.symm hxa, hxh,
            Ne.symm hxh]
          refine ⟨?_, ?_⟩
          · simpa [prev_in, Ne.symm hxh] using hp
          · simpa [next_in, Ne.symm hxh] using hn
    · simp [ht, List.getLast?_cons_cons]
    · simp [map_unlinked_modify_entry]

theorem getLast?_ne_nil {l : List Nat} (h : l ≠ []) : ∃ p, l.getLast? = some p := by
  cases hq : l.getLast? with
  | none => exact absurd (List.getLast?_eq_none_iff.mp hq) h
  | some p => exact ⟨p, rfl⟩

theorem head?_ne_nil {l : List Nat} (h : l ≠ []) : ∃ p, l.head? = some p := by
  cases l with
  | nil => exact absurd rfl h
  | cons y r => exact ⟨y, rfl⟩

theorem getLast?_append_cons (l1 : List Nat) (y : Nat) (r : List Nat) :
    (l1 ++ y :: r).getLast? = (y :: r).getLast? := by
  rcases getLast?_ne_nil (l := y :: r) (by simp) with ⟨q, hq⟩
  simp [List.getLast?_append, hq]

theorem remove_tail_linked (c : cache) (l0 : List Nat) (t : Nat)
    (hl : linked c.heap (l0 ++ [t])) (ht : c.tail = some t) (hne : l0 ≠ []) :
    ∃ c1, dllist_remove_tail c = some (c1, some t) ∧ linked c1.heap l0 ∧
      c1.head = c.head ∧ c1.tail = l0.getLast? ∧ c1.max_size = c.max_size ∧
      c1.cur_size = c.cur_size - 1 ∧ c1.index = c.index ∧
      c1.heap.map unlinked = c.heap.map unlinked := by
  rcases getLast?_ne_nil hne with ⟨p, hp⟩
  have hnd : (l0 ++ [t]).Nodup := hl.1
  have hnd0 : l0.Nodup := (List.nodup_append.mp hnd).1
  have htn : t ∉ l0 := by
    intro hmem
    exact (List.nodup_append.mp hnd).2.2 hmem (List.mem_singleton_self t)
  have hpm : p ∈ l0 := List.mem_of_getLast?_eq_some hp
  rcases hl.2 t (by simp) with ⟨bt, hbt, hbtl, hbtp, _⟩
  have hprev : bt.entry.prev = some p := by
    rw [hbtp, prev_in_append_right _ _ _ _ htn, last_or_eq _ _ hp]
    simp [prev_in]
  have hplive : is_live c.heap p := linked_live hl (by simp [hpm])
  refine ⟨{ c with tail := some p,
                   heap := modify_entry c.heap p fun e => { e with next := none },
                   cur_size := c.cur_size - 1 },
    by simp [dllist_remove_tail, ht, deref_live _ _ _ hbt hbtl, hprev, store_live _ _ _ hplive],
    ?_, rfl, by simp [hp], rfl, rfl, rfl, by simp [map_unlinked_modify_entry]⟩
  refine ⟨hnd0, ?_⟩
  intro x hx
  rcases hl.2 x (by simp [hx]) with ⟨b, hb, hbl, hbp, hbn⟩
  rw [prev_in_append_left _ _ _ _ hx] at hbp
  rw [next_in_append_left _ _ _ _ hx] at hbn
  by_cases hxp : x = p
  · subst hxp
    simp [get_modify_entry, hb, hbl, hbp, next_in_last _ _ _ hnd0 hp]
  · have hlast : l0.getLast? ≠ some x := by
      rw [hp]
      intro e
      exact hxp (Option.some.inj e).symm
    simp [get_modify_entry, hb, hbl, hbp, hxp, hbn]
    exact next_in_last_ne _ _ _ _ hlast

theorem move_to_head_linked (c : cache) (l1 l2 : List Nat) (a : Nat)
    (hl : linked c.heap (l1 ++ a :: l2)) (hh : c.head = (l1 ++ a :: l2).head?)
    (ht : c.tail = (l1 ++ a :: l2).getLast?) (hne : l1 ≠ []) :
    ∃ c1, dllist_move_to_head c (some a) = some c1 ∧ linked c1.heap (a :: (l1 ++ l2)) ∧
      c1.head = some a ∧ c1.tail = (a :: (l1 ++ l2)).getLast? ∧ c1.max_size = c.max_size ∧
      c1.cur_size = c.cur_size ∧ c1.index = c.index ∧
      c1.heap.map unlinked = c.heap.map unlinked := by
  rcases getLast?_ne_nil hne with ⟨p, hp⟩
  rcases head?_ne_nil hne with ⟨hd, hhd⟩
  have hnd : (l1 ++ a :: l2).Nodup := hl.1
  have hnd1 : l1.Nodup := (List.nodup_append.mp hnd).1
  have hnd2 : (a :: l2).Nodup := (List.nodup_append.mp hnd).2.1
  have hdis : ∀ x, x ∈ l1 → x ∈ a :: l2 → False := (List.nodup_append.mp hnd).2.2
  have ha1 : a ∉ l1 := fun h => hdis a h (List.mem_cons_self _ _)
  have ha2 : a ∉ l2 := (List.nodup_cons.mp hnd2).1
  have hpm : p ∈ l1 := List.mem_of_getLast?_eq_some hp
  have hhm : hd ∈ l1 := List.mem_of_mem_head? hhd
  have hap : a ≠ p := fun e => ha1 (e ▸ hpm)
  have hah : a ≠ hd := fun e => ha1 (e ▸ hhm)
  have hhead : c.head = some hd := by
    rw [hh]
    cases l1 with
    | nil => exact absurd rfl hne
    | cons y r => simpa using hhd
  rcases hl.2 a (by simp) with ⟨ba, hba, hbal, hbap, hban⟩
  have hprev : ba.entry.prev = some p := by
    rw [hbap, prev_in_append_right _ _ _ _ ha1, last_or_eq _ _ hp]
    simp [prev_in]
  have hnext : ba.entry.next = head_or l2 none := by
    rw [hban, next_in_append_right _ _ _ _ ha1]
    simp [next_in]
  have hlp : is_live c.heap p := linked_live hl (by simp [hpm])
  have hlh : is_live c.heap hd := linked_live hl (by simp [hhm])
  have hla : is_live c.heap a := ⟨ba, hba, hbal⟩
  have hho : ∀ l : List Nat, head_or (l1 ++ l) none = some hd := by
    intro l
    cases l1 with
    | nil => exact absurd rfl hne
    | cons y r => simpa [head_or] using hhd
  have hho0 : head_or l1 none = some hd := head_or_eq _ _ hhd
  -- what the final heap has to hold for the entries of `l1`
  have key1 : ∀ x ∈ l1, ∃ b, c.heap[x]? = some b ∧ b.entry_live = true ∧
      b.entry.prev = prev_in none l1 x ∧ b.entry.next = next_in l1 x (some a) ∧
      prev_in none (a :: (l1 ++ l2)) x = (if x = hd then some a else prev_in none l1 x) ∧
      next_in (a :: (l1 ++ l2)) x none =
        (if x = p then head_or l2 none
         else next_in l1 x (some a)) := by
    intro x hx
    rcases hl.2 x (by simp [hx]) with ⟨b, hb, hbl, hbp, hbn⟩
    rw [prev_in_append_left _ _ _ _ hx] at hbp
    rw [next_in_append_left _ _ _ _ hx] at hbn
    have hxa : a ≠ x := fun e => ha1 (e ▸ hx)
    refine ⟨b, hb, hbl, hbp, hbn, ?_, ?_⟩
    · simp only [prev_in, hxa, if_false]
      rw [prev_in_append_left _ _ _ _ hx]
      by_cases hxh : x = hd
      · subst hxh
        simp [prev_in_head _ _ _ hhd]
      · simp only [hxh, if_false]
        apply prev_in_head_ne
        rw [hhd]
        intro e
        exact hxh (Option.some.inj e).symm
    · simp only [next_in, hxa, if_false]
      rw [next_in_append_left _ _ _ _ hx]
      by_cases hxp : x = p
      · subst hxp
        simp [next_in_last _ _ _ hnd1 hp]
      · simp only [hxp, if_false]
        apply next_in_last_ne
        rw [hp]
        intro e
        exact hxp (Option.some.inj e).symm
  cases l2 with
  | nil =>
    have htail : c.tail = some a := by simp [ht]
    simp only [head_or] at hnext
    refine ⟨{ c with tail := some p, head := some a,
                     heap := modify_entry (modify_entry (modify_entry
                       (modify_entry c.heap p fun e => { e with next := none })
                       a fun e => { e with next := some hd })
                       hd fun e => { e with prev := some a })
                       a fun e => { e with prev := none } },
      by simp [dllist_move_to_head, hhead, htail, hah, deref_live _ _ _ hba hbal, hprev,
          store_live, is_live_modify_entry, hlp, hlh, hla],
      ?_, rfl, ?_, rfl, rfl, rfl, by simp [map_unlinked_modify_entry]⟩
    · refine ⟨?_, ?_⟩
      · simpa using List.nodup_cons.mpr ⟨ha1, hnd1⟩
      · intro x hx
        by_cases hxa : x = a
        · subst hxa
          simp [get_modify_entry, hba, hbal, hah, hap, prev_in, next_in, hho, hho0]
        · have hx1 : x ∈ l1 := by simpa [hxa] using hx
          rcases key1 x hx1 with ⟨b, hb, hbl, hbp, hbn, e1, e2⟩
          rw [e1, e2]
          refine ⟨_, by simp only [get_modify_entry_map, hb, Option.map_some']; rfl, ?_, ?_, ?_⟩ <;>
            simp only [hxa, if_false] <;> split_ifs <;> simp [hbl, hbp, hbn, head_or]
    · cases l1 with
      | nil => exact absurd rfl hne
      | cons y r => simpa [List.getLast?_cons_cons] using hp.symm
  | cons n r2 =>
    simp only [head_or] at hnext
    have hn2 : n ∈ a :: n :: r2 := by simp
    have han : a ≠ n := fun e => ha2 (by simp [e])
    have hn1 : n ∉ l1 := fun h => hdis n h hn2
    have hnp : n ≠ p := fun e => hn1 (e ▸ hpm)
    have hnh : n ≠ hd := fun e => hn1 (e ▸ hhm)
    have hln : is_live c.heap n := linked_live hl (by simp)
    have htail : c.tail ≠ some a := by
      rw [ht]
      intro e
      have hl' : (l1 ++ a :: n :: r2).getLast? = (n :: r2).getLast? := by
        rw [getLast?_append_cons, List.getLast?_cons_cons]
      rw [hl'] at e
      exact ha2 (List.mem_of_getLast?_eq_some e)
    have hba1 : (modify_entry c.heap p fun e => { e with next := some n })[a]? = some ba := by
      simp [get_modify_entry, hap, hba]
    refine ⟨{ c with head := some a,
                     heap := modify_entry (modify_entry (modify_entry (modify_entry
                       (modify_entry c.heap p fun e => { e with next := some n })
                       n fun e => { e with prev := some p })
                       a fun e => { e with next := some hd })
                       hd fun e => { e with prev := some a })
                       a fun e => { e with prev := none } },
      by simp [dllist_move_to_head, hhead, Ne.symm htail, hah, deref_live _ _ _ hba hbal,
          deref_live _ _ _ hba1 hbal, hprev, hnext,
          store_live, is_live_modify_entry, hlp, hlh, hla, hln],
      ?_, rfl, ?_, rfl, rfl, rfl, by simp [map_unlinked_modify_entry]⟩
    · refine ⟨?_, ?_⟩
      · have h2 : (n :: r2).Nodup := (List.nodup_cons.mp hnd2).2
        refine List.nodup_cons.mpr ⟨?_, ?_⟩
        · intro h
          rcases List.mem_append.mp h with h | h
          · exact ha1 h
          · exact ha2 h
        · refine List.nodup_append.mpr ⟨hnd1, h2, ?_⟩
          intro x hx1 hx2
          exact hdis x hx1 (List.mem_cons_of_mem _ hx2)
      · intro x hx
        by_cases hxa : x = a
        · subst hxa
          simp [get_modify_entry, hba, hbal, hah, hap, han, prev_in, next_in, hho]
        · by_cases hx1 : x ∈ l1
          · rcases key1 x hx1 with ⟨b, hb, hbl, hbp, hbn, e1, e2⟩
            have hxn : x ≠ n := fun e => hn1 (e ▸ hx1)
            rw [e1, e2]
            refine ⟨_, by simp only [get_modify_entry_map, hb, Option.map_some']; rfl, ?_, ?_, ?_⟩ <;>
              simp only [hxa, hxn, if_false] <;> split_ifs <;> simp [hbl, hbp, hbn, head_or]
          · have hx2 : x ∈ n :: r2 := by
              rcases List.mem_cons.mp hx with h | h
              · exact absurd h hxa
              · rcases List.mem_append.mp h with h | h
                · exact absurd h hx1
                · exact h
            rcases hl.2 x (by simp [hx2]) with ⟨b, hb, hbl, hbp, hbn⟩
            have hxp : x ≠ p := fun e => hx1 (e ▸ hpm)
            have hxh : x ≠ hd := fun e => hx1 (e ▸ hhm)
            rw [prev_in_append_right _ _ _ _ hx1, last_or_eq _ _ hp] at hbp
            rw [next_in_append_right _ _ _ _ hx1] at hbn
            have e1 : prev_in none (a :: (l1 ++ n :: r2)) x =
                (if x = n then some p else prev_in (some n) r2 x) := by
              simp only [prev_in, Ne.symm hxa, if_false]
              rw [prev_in_append_right _ _ _ _ hx1, last_or_eq _ _ hp]
              by_cases hxn : x = n
              · simp [prev_in, hxn]
              · simp [prev_in, hxn, Ne.symm hxn]
            have e2 : next_in (a :: (l1 ++ n :: r2)) x none = next_in (n :: r2) x none := by
              have e3 : next_in (a :: (l1 ++ n :: r2)) x none =
                  next_in (l1 ++ n :: r2) x none := by
                simp only [next_in, Ne.symm hxa, if_false]
              rw [e3, next_in_append_right _ _ _ _ hx1]
            rw [e1, e2]
            have hbp2 : b.entry.prev = prev_in (some a) (n :: r2) x := by
              simpa [prev_in, Ne.symm hxa] using hbp
            have hbn2 : b.entry.next = next_in (n :: r2) x none := by
              simpa [next_in, Ne.symm hxa] using hbn
            refine ⟨_, by simp only [get_modify_entry_map, hb, Option.map_some']; rfl, ?_, ?_, ?_⟩
            · simp only [hxa, hxh, hxp, if_false]
              split_ifs <;> simp [hbl]
            · simp only [hxa, hxh, hxp, if_false]
              by_cases hxn : x = n
              · simp [hxn]
              · simp [hxn, hbp2, prev_in, Ne.symm hxn]
            · simp only [hxa, hxh, hxp, if_false]
              split_ifs <;> simp [hbn2]
    · have e4 : a :: (l1 ++ n :: r2) = (a :: l1) ++ n :: r2 := rfl
      rw [ht, e4, getLast?_append_cons, getLast?_append_cons, List.getLast?_cons_cons]

/-! ## The index, the walk and the invariant -/

theorem hashtable_get_delete (ht : hashtable) (k k1 : String) :
    hashtable_get (hashtable_delete ht k) k1 = if k1 = k then none else hashtable_get ht k1 := by
  induction ht with
  | nil => simp [hashtable_delete, hashtable_get]
  | cons kv rest ih =>
    rcases kv with ⟨k0, v⟩
    by_cases h0 : k0 = k
    · subst h0
      simp only [hashtable_delete, if_true, ih, hashtable_get]
      by_cases h1 : k1 = k0
      · simp [h1]
      · simp [h1, Ne.symm h1]
    · simp only [hashtable_delete, h0, if_false, hashtable_get, ih]
      by_cases h1 : k1 = k
      · subst h1
        simp [h0]
      · simp [h1]

theorem hashtable_get_put (ht : hashtable) (k k1 : String) (v : Nat) :
    hashtable_get (hashtable_put ht k v) k1 = if k1 = k then some v else hashtable_get ht k1 := by
  unfold hashtable_put
  by_cases h1 : k1 = k
  · subst h1
    simp [hashtable_get]
  · simp [hashtable_get, Ne.symm h1, h1, hashtable_get_delete]

theorem unlinked_at {h h1 : List block} (e : h1.map unlinked = h.map unlinked) {x : Nat}
    {b : block} (hb : h[x]? = some b) : ∃ b1, h1[x]? = some b1 ∧ unlinked b1 = unlinked b := by
  have hx : (h1.map unlinked)[x]? = (h.map unlinked)[x]? := by rw [e]
  simp only [List.getElem?_map, hb, Option.map_some'] at hx
  cases h1x : h1[x]? with
  | none => simp [h1x] at hx
  | some b1 =>
    refine ⟨b1, rfl, ?_⟩
    simpa [h1x] using hx

theorem unlinked_path {b b1 : block} (h : unlinked b1 = unlinked b) :
    b1.entry.path = b.entry.path := by
  have := congrArg (fun z => z.entry.path) h
  simpa [unlinked] using this

theorem unlinked_payload {b b1 : block} (h : unlinked b1 = unlinked b) :
    payload_of b1 = payload_of b := by
  have := congrArg payload_of h
  simpa [unlinked, payload_of] using this

theorem path_at_congr {h h1 : List block} (e : h1.map unlinked = h.map unlinked) (x : Nat) :
    (h1[x]?).map (fun b => b.entry.path) = (h[x]?).map (fun b => b.entry.path) := by
  have hx : (h1.map unlinked)[x]? = (h.map unlinked)[x]? := by rw [e]
  simp only [List.getElem?_map] at hx
  cases e1 : h1[x]? with
  | none =>
    cases e2 : h[x]? with
    | none => rfl
    | some b => simp [e1, e2] at hx
  | some b1 =>
    cases e2 : h[x]? with
    | none => simp [e1, e2] at hx
    | some b =>
      simp only [e1, e2, Option.map_some', Option.some.injEq] at hx
      simp [unlinked_path hx]

theorem key_at_congr {c c1 : cache} (e : c1.heap.map unlinked = c.heap.map unlinked) (x : Nat) :
    key_at c1 x = key_at c x :=
  path_at_congr e x

theorem map_unlinked_release_entry (heap : List block) (a x : Nat) (hx : x ≠ a) :
    (release_entry heap a)[x]? = heap[x]? := by
  simp [get_release_entry, hx]

theorem walk_next_linked (heap : List block) (l1 l2 : List Nat) (h : linked heap (l1 ++ l2))
    (fuel : Nat) (hf : l2.length ≤ fuel) : walk_next heap fuel (head_or l2 none) = l2 := by
  induction l2 generalizing l1 fuel with
  | nil => cases fuel <;> simp [head_or, walk_next]
  | cons a r ih =>
    cases fuel with
    | zero => simp at hf
    | succ f =>
      have hnd := h.1
      have ha1 : a ∉ l1 := by
        intro hm
        exact (List.nodup_append.mp hnd).2.2 hm (List.mem_cons_self _ _)
      rcases h.2 a (by simp) with ⟨b, hb, hbl, _, hbn⟩
      rw [next_in_append_right _ _ _ _ ha1] at hbn
      simp only [next_in, if_true] at hbn
      have h2 : linked heap ((l1 ++ [a]) ++ r) := by simpa using h
      have := ih (l1 ++ [a]) h2 f (by simpa using hf)
      show walk_next heap (f + 1) (some a) = a :: r
      simp only [walk_next, deref_live _ _ _ hb hbl, hbn, this]

theorem entries_eq {c : cache} {l : List Nat} (h : inv c l) : entries c = l := by
  unfold entries
  have hh : c.head = head_or l none := by
    rw [h.head_eq]
    cases l <;> rfl
  rw [hh]
  exact walk_next_linked c.heap [] l (by simpa using h.links) _ (linked_length_le h.links)

theorem inv_create (max_size hashsize : Int) (h : 1 ≤ max_size) :
    inv (cache_create max_size hashsize) [] := by
  refine ⟨⟨List.nodup_nil, ?_⟩, rfl, rfl, rfl, h, ?_, ?_⟩
  · intro a ha
    simp at ha
  · show (0 : Int) ≤ max_size
    omega
  · intro k a hk
    simp [cache_create, hashtable_create, hashtable_get] at hk

/-! ## The public operations keep the invariant -/

theorem linked_append {heap : List block} {l : List Nat} (h : linked heap l) (nb : block) :
    linked (heap ++ [nb]) l := by
  refine ⟨h.1, ?_⟩
  intro a ha
  rcases h.2 a ha with ⟨b, hb, rest⟩
  refine ⟨b, ?_, rest⟩
  rw [List.getElem?_append_left (linked_lt h ha)]
  exact hb

theorem cache_put_eq (c : cache) (path content_type : String) (content : List byte)
    (content_length : Int) :
    cache_put c path content_type content content_length =
      (dllist_insert_head
          { c with heap := c.heap ++ [new_block path content_type content content_length] }
          (some c.heap.length)).bind
        (fun c1 => evict_loop (c1.cur_size + 1 - c1.max_size).toNat
          { c1 with index := hashtable_put c1.index path c.heap.length,
                    cur_size := c1.cur_size + 1 }) := by
  rfl

theorem evict_loop_done (n : Nat) (c : cache) (h : c.cur_size ≤ c.max_size) :
    evict_loop n c = some c := by
  have h1 : ¬ c.cur_size > c.max_size := by omega
  cases n <;> simp [evict_loop, h1]

theorem cache_put_room (c : cache) (l : List Nat) (h : inv c l) (path content_type : String)
    (content : List byte) (content_length : Int) (hroom : c.cur_size < c.max_size) :
    ∃ c1, cache_put c path content_type content content_length = some c1 ∧
      inv c1 (c.heap.length :: l) ∧ c1.max_size = c.max_size ∧
      c1.index = hashtable_put c.index path c.heap.length ∧
      c1.heap.map unlinked =
        (c.heap ++ [new_block path content_type content content_length]).map unlinked := by
  have hal : c.heap.length ∉ l := fun hm => Nat.lt_irrefl _ (linked_lt h.links hm)
  have hlive : is_live (c.heap ++ [new_block path content_type content content_length])
      c.heap.length := ⟨_, List.getElem?_concat_length _ _, rfl⟩
  rcases insert_head_linked
      { c with heap := c.heap ++ [new_block path content_type content content_length] }
      l c.heap.length (linked_append h.links _) h.head_eq h.tail_eq hal hlive with
    ⟨c1, e1, hl1, hh1, ht1, hm1, hs1, hi1, hu1⟩
  simp only at hm1 hs1 hi1 hu1
  refine ⟨{ c1 with index := hashtable_put c1.index path c.heap.length,
                    cur_size := c1.cur_size + 1 }, ?_, ?_, hm1, by simp [hi1], hu1⟩
  · rw [cache_put_eq, e1, Option.some_bind]
    apply evict_loop_done
    simp only [hs1, hm1]
    omega
  · have hkey := path_at_congr hu1
    refine ⟨hl1, hh1, ht1, ?_, by simpa [hm1] using h.cap_pos, ?_, ?_⟩
    · simp [hs1, h.size_eq]
    · simp only [hs1, hm1]
      omega
    · intro k a hk
      simp only [hi1, hashtable_get_put] at hk
      show _ ∧ (c1.heap[a]?).map (fun b : block => b.entry.path) = some k
      rw [hkey]
      by_cases hkp : k = path
      · subst hkp
        simp only [if_true, Option.some.injEq] at hk
        subst hk
        simp [new_block]
      · simp only [hkp, if_false] at hk
        rcases h.index_sound k a hk with ⟨ham, hak⟩
        refine ⟨List.mem_cons_of_mem _ ham, ?_⟩
        rw [List.getElem?_append_left (linked_lt h.links ham)]
        exact hak

theorem map_unlinked_release_congr {h h1 : List block} (e : h1.map unlinked = h.map unlinked)
    (t : Nat) : (release_entry h1 t).map unlinked = (release_entry h t).map unlinked := by
  apply List.ext_getElem?
  intro x
  have hx : ∀ y : Nat, (h1.map unlinked)[y]? = (h.map unlinked)[y]? := by
    intro y
    rw [e]
  simp only [List.getElem?_map] at hx
  simp only [List.getElem?_map, get_release_entry]
  by_cases hxt : x = t
  · subst hxt
    simp only [if_true]
    have := hx x
    cases e1 : h1[x]? with
    | none =>
      cases e2 : h[x]? with
      | none => rfl
      | some b => simp [e1, e2] at this
    | some b1 =>
      cases e2 : h[x]? with
      | none => simp [e1, e2] at this
      | some b =>
        simp only [e1, e2, Option.map_some', Option.some.injEq] at this
        have hq : unlinked { b1 with entry_live := false } =
            unlinked { b with entry_live := false } := by
          simp only [unlinked, block.mk.injEq] at this ⊢
          simp [this]
        simp [hq]
  · simp only [hxt, if_false]
    exact hx x

theorem path_at_release (h : List block) (t x : Nat) :
    ((release_entry h t)[x]?).map (fun b => b.entry.path) =
      (h[x]?).map (fun b => b.entry.path) := by
  rw [get_release_entry]
  by_cases hxt : x = t
  · subst hxt
    cases h[x]? <;> simp
  · simp [hxt]

theorem cache_put_full (c : cache) (l : List Nat) (h : inv c l) (path content_type : String)
    (content : List byte) (content_length : Int) (hfull : c.cur_size = c.max_size) :
    ∃ c1 l0 t kt, l = l0 ++ [t] ∧ key_at c t = some kt ∧
      cache_put c path content_type content content_length = some c1 ∧
      inv c1 (c.heap.length :: l0) ∧ c1.max_size = c.max_size ∧
      c1.index = hashtable_delete (hashtable_put c.index path c.heap.length) kt ∧
      c1.heap.map unlinked =
        (release_entry (c.heap ++ [new_block path content_type content content_length])
          t).map unlinked := by
  have hcap := h.cap_pos
  have hsz := h.size_eq
  rcases List.eq_nil_or_concat l with hnil | ⟨l0, t, hlt⟩
  · subst hnil
    simp at hsz
    omega
  rw [List.concat_eq_append] at hlt
  subst hlt
  have hal : c.heap.length ∉ l0 ++ [t] := fun hm => Nat.lt_irrefl _ (linked_lt h.links hm)
  have hlive : is_live (c.heap ++ [new_block path content_type content content_length])
      c.heap.length := ⟨_, List.getElem?_concat_length _ _, rfl⟩
  rcases insert_head_linked
      { c with heap := c.heap ++ [new_block path content_type content content_length] }
      (l0 ++ [t]) c.heap.length (linked_append h.links _) h.head_eq h.tail_eq hal hlive with
    ⟨c1, e1, hl1, hh1, ht1, hm1, hs1, hi1, hu1⟩
  simp only at hm1 hs1 hi1 hu1
  have htm : t ∈ l0 ++ [t] := by simp
  have htlt : t < c.heap.length := linked_lt h.links htm
  rcases h.links.2 t htm with ⟨bt, hbt, hbtl, _, _⟩
  have hbt0 : (c.heap ++ [new_block path content_type content content_length])[t]? = some bt := by
    rw [List.getElem?_append_left htlt]
    exact hbt
  rcases unlinked_at hu1 hbt0 with ⟨b1, hb1, hub1⟩
  have hlen : ((l0 ++ [t]).length : Int) = (l0.length : Int) + 1 := by simp
  -- the eviction round
  have hl3 : linked c1.heap ((c.heap.length :: l0) ++ [t]) := by simpa using hl1
  have ht3 : c1.tail = some t := by
    rw [ht1]
    have e : c.heap.length :: (l0 ++ [t]) = (c.heap.length :: l0) ++ [t] := rfl
    rw [e, List.getLast?_concat]
  rcases remove_tail_linked
      { c1 with index := hashtable_put c1.index path c.heap.length, cur_size := c1.cur_size + 1 }
      (c.heap.length :: l0) t hl3 ht3 (by simp) with
    ⟨c4, e4, hl4, hh4, ht4, hm4, hs4, hi4, hu4⟩
  simp only at hh4 hm4 hs4 hi4 hu4
  rcases unlinked_at hu4 hb1 with ⟨b4, hb4, hub4⟩
  have hub : unlinked b4 = unlinked bt := hub4.trans hub1
  have hb4l : b4.entry_live = true := by
    have := congrArg block.entry_live hub
    simp only [unlinked] at this
    rw [this, hbtl]
  have hb4p : b4.entry.path = bt.entry.path := unlinked_path hub
  have hfuel : (c1.cur_size + 1 - c1.max_size).toNat = 1 := by
    rw [hs1, hm1, hfull]
    simp
  have hgt : c1.cur_size + 1 > c1.max_size := by
    rw [hs1, hm1, hfull]
    omega
  have hne : ∀ x ∈ c.heap.length :: l0, x ≠ t := by
    intro x hx e
    subst e
    have hnd := hl3.1
    exact (List.nodup_append.mp hnd).2.2 hx (List.mem_singleton_self x)
  refine ⟨{ c4 with index := hashtable_delete c4.index b4.entry.path,
                    heap := release_entry c4.heap t }, l0, t, bt.entry.path, rfl,
    by simp [key_at, hbt], ?_, ?_, by simp [hm4, hm1], by simp [hi4, hi1, hb4p], ?_⟩
  · rw [cache_put_eq, e1, Option.some_bind, hfuel]
    simp only [evict_loop, hgt, if_true, e4, Option.bind_eq_bind, Option.some_bind,
      deref_live _ _ _ hb4 hb4l, free_live _ _ ⟨b4, hb4, hb4l⟩]
    have hle : c4.cur_size ≤ c4.max_size := by
      rw [hs4, hm4, hs1, hm1, hfull]
      omega
    have hle2 : ¬ c4.cur_size > c4.max_size := by omega
    simp [hle2]
  · refine ⟨⟨hl4.1, ?_⟩, by simpa [hh4] using hh1, ht4, ?_, by simpa [hm4, hm1] using hcap,
      ?_, ?_⟩
    · intro x hx
      rcases hl4.2 x hx with ⟨b, hb, rest⟩
      refine ⟨b, ?_, rest⟩
      simpa [get_release_entry, hne x hx] using hb
    · show c4.cur_size = ((c.heap.length :: l0).length : Int)
      rw [hs4, hs1, hsz]
      simp
    · simp only [hs4, hm4, hs1, hm1, hfull]
      omega
    · intro k a hk
      simp only [hi4, hi1, hashtable_get_delete, hashtable_get_put] at hk
      show _ ∧ ((release_entry c4.heap t)[a]?).map (fun b : block => b.entry.path) = some k
      rw [path_at_release, path_at_congr hu4, path_at_congr hu1]
      by_cases hkt : k = b4.entry.path
      · simp [hkt] at hk
      · simp only [hkt, if_false] at hk
        by_cases hkp : k = path
        · subst hkp
          simp only [if_true, Option.some.injEq] at hk
          subst hk
          simp [new_block]
        · simp only [hkp, if_false] at hk
          rcases h.index_sound k a hk with ⟨ham, hak⟩
          have hat : a ≠ t := by
            intro e
            subst e
            have : some bt.entry.path = some k := by simpa [key_at, hbt] using hak
            exact hkt (by rw [hb4p]; exact (Option.some.inj this).symm)
          refine ⟨?_, ?_⟩
          · have : a ∈ l0 := by simpa [hat] using ham
            exact List.mem_cons_of_mem _ this
          · rw [List.getElem?_append_left (linked_lt h.links ham)]
            exact hak
  · exact (map_unlinked_release_congr hu4 t).trans (map_unlinked_release_congr hu1 t)

theorem cache_get_miss (c : cache) (k : String) (hk : hashtable_get c.index k = none) :
    cache_get c k = some (c, none) := by
  simp [cache_get, hk]

theorem cache_get_hit (c : cache) (l : List Nat) (h : inv c l) (k : String) (a : Nat)
    (hk : hashtable_get c.index k = some a) :
    ∃ c1, cache_get c k = some (c1, some a) ∧ inv c1 (a :: l.erase a) ∧
      c1.max_size = c.max_size ∧ c1.cur_size = c.cur_size ∧ c1.index = c.index ∧
      c1.heap.map unlinked = c.heap.map unlinked ∧ (l.head? = some a → c1 = c) := by
  have ham : a ∈ l := (h.index_sound k a hk).1
  by_cases hhd : l.head? = some a
  · have hca : c.head = some a := by rw [h.head_eq, hhd]
    have hl : a :: l.erase a = l := by
      cases l with
      | nil => simp at hhd
      | cons y r =>
        simp only [List.head?_cons, Option.some.injEq] at hhd
        subst hhd
        simp
    refine ⟨c, by simp [cache_get, hk, dllist_move_to_head, hca], by rw [hl]; exact h,
      rfl, rfl, rfl, rfl, fun _ => rfl⟩
  · rcases List.append_of_mem ham with ⟨l1, l2, hl⟩
    subst hl
    have hnd := h.links.1
    have ha1 : a ∉ l1 := by
      intro hm
      exact (List.nodup_append.mp hnd).2.2 hm (List.mem_cons_self _ _)
    have hne : l1 ≠ [] := by
      intro e
      subst e
      simp at hhd
    have her : (l1 ++ a :: l2).erase a = l1 ++ l2 := by
      rw [List.erase_append_right _ ha1, List.erase_cons_head]
    rcases move_to_head_linked c l1 l2 a h.links h.head_eq h.tail_eq hne with
      ⟨c1, e1, hl1, hh1, ht1, hm1, hs1, hi1, hu1⟩
    refine ⟨c1, by simp [cache_get, hk, e1], ?_, hm1, hs1, hi1, hu1, fun e => absurd e hhd⟩
    rw [her]
    refine ⟨hl1, hh1, ht1, ?_, by simpa [hm1] using h.cap_pos, ?_, ?_⟩
    · rw [hs1, h.size_eq]
      simp
      omega
    · rw [hs1, hm1]
      exact h.size_le
    · intro k1 a1 hk1
      rw [hi1] at hk1
      rcases h.index_sound k1 a1 hk1 with ⟨hm, hkey⟩
      refine ⟨?_, ?_⟩
      · simp only [List.mem_append, List.mem_cons] at hm ⊢
        tauto
      · rw [key_at_congr hu1]
        exact hkey

theorem step_inv (c : cache) (l : List Nat) (h : inv c l) (x : call) :
    ∃ c1 l1, step c x = some c1 ∧ inv c1 l1 ∧ c1.max_size = c.max_size := by
  cases x with
  | put path content_type content content_length =>
    by_cases hroom : c.cur_size < c.max_size
    · rcases cache_put_room c l h path content_type content content_length hroom with
        ⟨c1, e1, hi, hm, _⟩
      exact ⟨c1, _, e1, hi, hm⟩
    · have hfull : c.cur_size = c.max_size := by
        have := h.size_le
        omega
      rcases cache_put_full c l h path content_type content content_length hfull with
        ⟨c1, l0, t, kt, _, _, e1, hi, hm, _⟩
      exact ⟨c1, _, e1, hi, hm⟩
  | get path =>
    cases hk : hashtable_get c.index path with
    | none => exact ⟨c, l, by simp [step, cache_get_miss c path hk], h, rfl⟩
    | some a =>
      rcases cache_get_hit c l h path a hk with ⟨c1, e1, hi, hm, _⟩
      exact ⟨c1, _, by simp [step, e1], hi, hm⟩

theorem run_inv (calls : List call) (c : cache) (l : List Nat) (h : inv c l) :
    ∃ c1 l1, run c calls = some c1 ∧ inv c1 l1 ∧ c1.max_size = c.max_size := by
  induction calls generalizing c l with
  | nil => exact ⟨c, l, rfl, h, rfl⟩
  | cons x rest ih =>
    rcases step_inv c l h x with ⟨c1, l1, e1, h1, hm1⟩
    rcases ih c1 l1 h1 with ⟨c2, l2, e2, h2, hm2⟩
    exact ⟨c2, l2, by simp [run, e1, e2], h2, hm2.trans hm1⟩

theorem read_entry_congr {c c1 : cache} (e : c1.heap.map unlinked = c.heap.map unlinked)
    (p : Option Nat) : read_entry c1 p = read_entry c p := by
  cases p with
  | none => rfl
  | some a =>
    have hx : (c1.heap.map unlinked)[a]? = (c.heap.map unlinked)[a]? := by rw [e]
    simp only [List.getElem?_map] at hx
    cases e1 : c1.heap[a]? with
    | none =>
      cases e2 : c.heap[a]? with
      | none => simp [read_entry, deref, e1, e2]
      | some b => simp [e1, e2] at hx
    | some b1 =>
      cases e2 : c.heap[a]? with
      | none => simp [e1, e2] at hx
      | some b =>
        simp only [e1, e2, Option.map_some', Option.some.injEq] at hx
        have hl : b1.entry_live = b.entry_live := by
          have := congrArg block.entry_live hx
          simpa [unlinked] using this
        have hp := unlinked_payload hx
        simp only [payload_of, Prod.mk.injEq] at hp
        simp only [read_entry, deref, e1, e2, hl]
        cases b.entry_live <;> simp [hp]

theorem cache_get_result {c c1 : cache} {k : String} {p : Option Nat}
    (h : cache_get c k = some (c1, p)) : hashtable_get c.index k = p := by
  unfold cache_get at h
  cases hk : hashtable_get c.index k with
  | none =>
    simp [hk] at h
    exact h.2
  | some a =>
    simp only [hk] at h
    cases hm : dllist_move_to_head c (some a) with
    | none => simp [hm] at h
    | some c2 =>
      simp [hm] at h
      exact h.2

theorem sample_cache_reachable : reachable sample_cache :=
  ⟨2, 0, sample_calls, by decide, by decide⟩

theorem read_entry_of (c : cache) (a : Nat) (b : block)
    (hu : (c.heap.map unlinked)[a]? = some (unlinked b)) (hl : b.entry_live = true) :
    read_entry c (some a) = some (payload_of b) := by
  simp only [List.getElem?_map] at hu
  cases e1 : c.heap[a]? with
  | none => simp [e1] at hu
  | some b1 =>
    simp only [e1, Option.map_some', Option.some.injEq] at hu
    have hl1 : b1.entry_live = true := by
      have := congrArg block.entry_live hu
      simp only [unlinked] at this
      rw [this, hl]
    have hp := unlinked_payload hu
    simp only [payload_of, Prod.mk.injEq] at hp
    simp [read_entry, deref, e1, hl1, payload_of, hp]

/-- What `cache_put` does in a state that satisfies the invariant: the call
returns, the new entry is at the head, and the old tail is evicted exactly
when the cache was full. -/
theorem cache_put_spec (c : cache) (l : List Nat) (h : inv c l) (k content_type : String)
    (content : List byte) (content_length : Int) :
    ∃ c1 l1, cache_put c k content_type content content_length = some c1 ∧
      inv c1 (c.heap.length :: l1) ∧ c1.max_size = c.max_size ∧
      c.heap.length ∉ l ∧
      read_entry c1 (some c.heap.length) =
        some (k, content_type, content.take content_length.toNat, content_length) ∧
      (∀ x ∈ l1, key_at c1 x = key_at c x) ∧
      ((c.cur_size < c.max_size ∧ l1 = l ∧
          c1.index = hashtable_put c.index k c.heap.length) ∨
       (c.cur_size = c.max_size ∧ ∃ t kt, l = l1 ++ [t] ∧ key_at c t = some kt ∧
          c1.index = hashtable_delete (hashtable_put c.index k c.heap.length) kt)) := by
  have hal : c.heap.length ∉ l := fun hm => Nat.lt_irrefl _ (linked_lt h.links hm)
  have hnew : (c.heap ++ [new_block k content_type content content_length])[c.heap.length]? =
      some (new_block k content_type content content_length) := List.getElem?_concat_length _ _
  by_cases hroom : c.cur_size < c.max_size
  · rcases cache_put_room c l h k content_type content content_length hroom with
      ⟨c1, e1, hi, hm, hx, hu⟩
    refine ⟨c1, l, e1, hi, hm, hal, ?_, ?_, Or.inl ⟨hroom, rfl, hx⟩⟩
    · refine read_entry_of c1 _ (new_block k content_type content content_length) ?_ rfl
      rw [hu, List.getElem?_map, hnew]
      rfl
    · intro x hx
      show (c1.heap[x]?).map (fun b : block => b.entry.path) = _
      rw [path_at_congr hu, List.getElem?_append_left (linked_lt h.links hx)]
      rfl
  · have hfull : c.cur_size = c.max_size := by
      have := h.size_le
      omega
    rcases cache_put_full c l h k content_type content content_length hfull with
      ⟨c1, l0, t, kt, hl, hkt, e1, hi, hm, hx, hu⟩
    have hta : c.heap.length ≠ t := by
      intro e
      apply hal
      rw [hl, e]
      simp
    refine ⟨c1, l0, e1, hi, hm, hal, ?_, ?_, Or.inr ⟨hfull, t, kt, hl, hkt, hx⟩⟩
    · refine read_entry_of c1 _ (new_block k content_type content content_length) ?_ rfl
      rw [hu, List.getElem?_map, get_release_entry, if_neg hta, hnew]
      rfl
    · intro x hx
      have hxl : x ∈ l := by
        rw [hl]
        simp [hx]
      show (c1.heap[x]?).map (fun b : block => b.entry.path) = _
      rw [path_at_congr hu, path_at_release, List.getElem?_append_left (linked_lt h.links hxl)]
      rfl

theorem tail_key_ne {c : cache} {l1 : List Nat} {t : Nat} {k kt : String}
    (h : inv c (l1 ++ [t])) (hkt : key_at c t = some kt)
    (hev : c.tail.bind (key_at c) ≠ some k) : k ≠ kt := by
  intro e
  apply hev
  rw [h.tail_eq, List.getLast?_concat]
  simp [hkt, e]

theorem index_after_put {c c1 : cache} {l l1 : List Nat} {k : String} (h : inv c l)
    (hev : c.cur_size = c.max_size → c.tail.bind (key_at c) ≠ some k)
    (hcase : (c.cur_size < c.max_size ∧ l1 = l ∧
          c1.index = hashtable_put c.index k c.heap.length) ∨
       (c.cur_size = c.max_size ∧ ∃ t kt, l = l1 ++ [t] ∧ key_at c t = some kt ∧
          c1.index = hashtable_delete (hashtable_put c.index k c.heap.length) kt)) :
    hashtable_get c1.index k = some c.heap.length := by
  rcases hcase with ⟨_, _, hx⟩ | ⟨hfull, t, kt, hl, hkt, hx⟩
  · rw [hx, hashtable_get_put]
    simp
  · subst hl
    have hne := tail_key_ne h hkt (hev hfull)
    rw [hx, hashtable_get_delete, if_neg hne, hashtable_get_put]
    simp

theorem keys_hashtable_delete (ht : hashtable) (k : String) :
    (hashtable_delete ht k).map Prod.fst = (ht.map Prod.fst).filter (fun x => decide (x ≠ k)) := by
  induction ht with
  | nil => rfl
  | cons kv rest ih =>
    rcases kv with ⟨k0, v⟩
    by_cases h0 : k0 = k
    · simp [hashtable_delete, h0, ih]
    · simp [hashtable_delete, h0, ih]

theorem nodup_hashtable_delete (ht : hashtable) (k : String) (h : (ht.map Prod.fst).Nodup) :
    ((hashtable_delete ht k).map Prod.fst).Nodup := by
  rw [keys_hashtable_delete]
  exact h.filter _

theorem nodup_hashtable_put (ht : hashtable) (k : String) (v : Nat)
    (h : (ht.map Prod.fst).Nodup) : ((hashtable_put ht k v).map Prod.fst).Nodup := by
  unfold hashtable_put
  rw [List.map_cons, List.nodup_cons]
  refine ⟨?_, nodup_hashtable_delete ht k h⟩
  rw [keys_hashtable_delete]
  simp

theorem hashtable_get_mem (ht : hashtable) (k : String) (v : Nat)
    (h : hashtable_get ht k = some v) : (k, v) ∈ ht := by
  induction ht with
  | nil => simp [hashtable_get] at h
  | cons kv rest ih =>
    rcases kv with ⟨k0, v0⟩
    by_cases h0 : k0 = k
    · simp [hashtable_get, h0] at h
      simp [h0, h]
    · simp only [hashtable_get, h0, if_false] at h
      exact List.mem_cons_of_mem _ (ih h)

theorem hashtable_mem_get (ht : hashtable) (k : String) (v : Nat)
    (hnd : (ht.map Prod.fst).Nodup) (h : (k, v) ∈ ht) : hashtable_get ht k = some v := by
  induction ht with
  | nil => simp at h
  | cons kv rest ih =>
    rcases kv with ⟨k0, v0⟩
    rw [List.map_cons, List.nodup_cons] at hnd
    rcases List.mem_cons.mp h with h1 | h1
    · cases h1
      simp [hashtable_get]
    · have hk : k ∈ rest.map Prod.fst := List.mem_map.mpr ⟨(k, v), h1, rfl⟩
      have h0 : k0 ≠ k := by
        intro e
        subst e
        exact hnd.1 hk
      simp only [hashtable_get, h0, if_false]
      exact ih hnd.2 h1

theorem filterMap_erase (f : Nat → Option String) (l : List Nat) (a : Nat) (k : String)
    (hfa : f a = some k) (hinj : ∀ x ∈ l, f x = some k → x = a) :
    (l.erase a).filterMap f = (l.filterMap f).erase k := by
  induction l with
  | nil => rfl
  | cons x r ih =>
    by_cases hxa : x = a
    · subst hxa
      simp [hfa]
    · have hfx : f x ≠ some k := fun e => hxa (hinj x (List.mem_cons_self _ _) e)
      have ihr := ih (fun y hy => hinj y (List.mem_cons_of_mem _ hy))
      rw [List.erase_cons_tail (by simpa using hxa)]
      cases hx : f x with
      | none => simp [List.filterMap_cons, hx, ihr]
      | some kx =>
        have hne : kx ≠ k := by
          intro e
          apply hfx
          rw [hx, e]
        rw [List.filterMap_cons_some hx, List.filterMap_cons_some hx,
          List.erase_cons_tail (by simpa using hne), ihr]

theorem agree_key_inj {c : cache} {l : List Nat} (h : agree c l) {x y : Nat} {k : String}
    (hx : x ∈ l) (hy : y ∈ l) (hkx : key_at c x = some k) (hky : key_at c y = some k) :
    x = y := by
  rcases h.2.1 x hx with ⟨k1, h1, g1⟩
  rcases h.2.1 y hy with ⟨k2, h2, g2⟩
  rw [hkx] at h1
  rw [hky] at h2
  cases h1
  cases h2
  rw [g1] at g2
  exact Option.some.inj g2

theorem agree_mem_keys {c : cache} {l : List Nat} (h : agree c l) (k : String) :
    k ∈ list_keys c ↔ ∃ a, hashtable_get c.index k = some a := by
  unfold list_keys
  rw [entries_eq h.1, List.mem_filterMap]
  constructor
  · rintro ⟨a, ha, hk⟩
    rcases h.2.1 a ha with ⟨k1, h1, g1⟩
    rw [hk] at h1
    cases h1
    exact ⟨a, g1⟩
  · rintro ⟨a, ha⟩
    rcases h.1.index_sound k a ha with ⟨hm, hk⟩
    exact ⟨a, hm, hk⟩

theorem agree_create (max_size hashsize : Int) (h : 1 ≤ max_size) :
    agree (cache_create max_size hashsize) [] := by
  refine ⟨inv_create max_size hashsize h, ?_, ?_⟩
  · intro a ha
    simp at ha
  · simp [cache_create, hashtable_create]

theorem agree_put (c : cache) (l : List Nat) (h : agree c l) (k ct : String)
    (bytes : List byte) (len : Int) (hk : hashtable_get c.index k = none) :
    ∃ c1 l1, cache_put c k ct bytes len = some c1 ∧ agree c1 l1 ∧ c1.max_size = c.max_size ∧
      c1.cur_size = min (c.cur_size + 1) c.max_size ∧
      list_keys c1 =
        (if c.cur_size < c.max_size then k :: list_keys c else k :: (list_keys c).dropLast) := by
  have hi := h.1
  rcases cache_put_spec c l hi k ct bytes len with ⟨c1, l1, e1, hi1, hm1, hal, _, hkeys, hcase⟩
  have hev : c.cur_size = c.max_size → c.tail.bind (key_at c) ≠ some k := by
    intro _ hb
    cases ht : c.tail with
    | none => simp [ht] at hb
    | some t =>
      simp only [ht, Option.some_bind] at hb
      have htl : t ∈ l := by
        apply List.mem_of_getLast?_eq_some
        rw [← hi.tail_eq, ht]
      rcases h.2.1 t htl with ⟨k1, h1, g1⟩
      rw [hb] at h1
      cases h1
      rw [hk] at g1
      cases g1
  have hk1 := index_after_put hi hev hcase
  have hkey : key_at c1 c.heap.length = some k := (hi1.index_sound k _ hk1).2
  have hfm : l1.filterMap (key_at c1) = l1.filterMap (key_at c) := by
    apply List.filterMap_congr
    intro x hx
    exact hkeys x hx
  have hlk : list_keys c1 = k :: l1.filterMap (key_at c) := by
    unfold list_keys
    rw [entries_eq hi1, List.filterMap_cons_some hkey, hfm]
  refine ⟨c1, _, e1, ⟨hi1, ?_, ?_⟩, hm1, ?_, ?_⟩
  · intro x hx
    rcases List.mem_cons.mp hx with hx | hx
    · subst hx
      exact ⟨k, hkey, hk1⟩
    · rcases hcase with ⟨_, hl, hix⟩ | ⟨_, t, kt, hl, hkt, hix⟩
      · subst hl
        rcases h.2.1 x hx with ⟨kx, h1, g1⟩
        refine ⟨kx, by rw [hkeys x hx]; exact h1, ?_⟩
        have hne : kx ≠ k := by
          intro e
          subst e
          rw [hk] at g1
          cases g1
        rw [hix, hashtable_get_put, if_neg hne]
        exact g1
      · subst hl
        have hxl : x ∈ l1 ++ [t] := by simp [hx]
        rcases h.2.1 x hxl with ⟨kx, h1, g1⟩
        refine ⟨kx, by rw [hkeys x hx]; exact h1, ?_⟩
        have hne : kx ≠ k := by
          intro e
          subst e
          rw [hk] at g1
          cases g1
        have hxt : x ≠ t := by
          intro e
          subst e
          exact (List.nodup_append.mp hi.links.1).2.2 hx (List.mem_singleton_self x)
        have hnt : kx ≠ kt := by
          intro e
          subst e
          exact hxt (agree_key_inj h hxl (by simp) h1 hkt)
        rw [hix, hashtable_get_delete, if_neg hnt, hashtable_get_put, if_neg hne]
        exact g1
  · rcases hcase with ⟨_, _, hix⟩ | ⟨_, t, kt, _, _, hix⟩
    · rw [hix]
      exact nodup_hashtable_put _ _ _ h.2.2
    · rw [hix]
      exact nodup_hashtable_delete _ _ (nodup_hashtable_put _ _ _ h.2.2)
  · rw [hi1.size_eq]
    have hsz := hi.size_eq
    rcases hcase with ⟨hroom, hl, _⟩ | ⟨hfull, t, kt, hl, _⟩
    · rw [hl, List.length_cons]
      push_cast
      omega
    · rw [hl] at hsz
      simp only [List.length_append, List.length_singleton, Nat.cast_add, Nat.cast_one] at hsz
      rw [List.length_cons]
      push_cast
      omega
  · rw [hlk]
    rcases hcase with ⟨hroom, hl, _⟩ | ⟨hfull, t, kt, hl, hkt, _⟩
    · rw [if_pos hroom, hl]
      unfold list_keys
      rw [entries_eq hi]
    · have hnot : ¬ c.cur_size < c.max_size := by omega
      rw [if_neg hnot]
      unfold list_keys
      rw [entries_eq hi, hl, List.filterMap_append]
      simp [hkt]

theorem agree_get (c : cache) (l : List Nat) (h : agree c l) (k : String) (a : Nat)
    (hk : hashtable_get c.index k = some a) :
    ∃ c1 l1, cache_get c k = some (c1, some a) ∧ agree c1 l1 ∧ c1.max_size = c.max_size ∧
      c1.cur_size = c.cur_size ∧ list_keys c1 = k :: (list_keys c).erase k := by
  have hi := h.1
  rcases cache_get_hit c l hi k a hk with ⟨c1, e1, hi1, hm1, hs1, hx1, hu1, _⟩
  rcases hi.index_sound k a hk with ⟨hal, hak⟩
  have hsub : ∀ x ∈ a :: l.erase a, x ∈ l := by
    intro x hx
    rcases List.mem_cons.mp hx with hx | hx
    · rw [hx]
      exact hal
    · exact List.mem_of_mem_erase hx
  have hf : key_at c1 = key_at c := funext (key_at_congr hu1)
  refine ⟨c1, _, e1, ⟨hi1, ?_, by rw [hx1]; exact h.2.2⟩, hm1, hs1, ?_⟩
  · intro x hx
    rcases h.2.1 x (hsub x hx) with ⟨kx, h1, g1⟩
    exact ⟨kx, by rw [hf]; exact h1, by rw [hx1]; exact g1⟩
  · unfold list_keys
    rw [entries_eq hi1, entries_eq hi, hf, List.filterMap_cons_some hak]
    rw [filterMap_erase (key_at c) l a k hak]
    intro x hx hxk
    exact agree_key_inj h hx hal hxk hak

theorem agree_step (c : cache) (l : List Nat) (h : agree c l) (x : call)
    (hf : fresh_puts c [x] = true) :
    ∃ c1 l1, step c x = some c1 ∧ agree c1 l1 ∧ c1.max_size = c.max_size := by
  cases x with
  | put k ct bytes len =>
    have hk : hashtable_get c.index k = none := by
      simp only [fresh_puts, Bool.and_eq_true, Option.isNone_iff_eq_none] at hf
      exact hf.1
    rcases agree_put c l h k ct bytes len hk with ⟨c1, l1, e1, h1, hm, _⟩
    exact ⟨c1, l1, e1, h1, hm⟩
  | get k =>
    cases hk : hashtable_get c.index k with
    | none => exact ⟨c, l, by simp [step, cache_get_miss c k hk], h, rfl⟩
    | some a =>
      rcases agree_get c l h k a hk with ⟨c1, l1, e1, h1, hm, _⟩
      exact ⟨c1, l1, by simp [step, e1], h1, hm⟩

theorem agree_run (calls : List call) (c : cache) (l : List Nat) (h : agree c l)
    (hf : fresh_puts c calls = true) :
    ∃ c1 l1, run c calls = some c1 ∧ agree c1 l1 ∧ c1.max_size = c.max_size := by
  induction calls generalizing c l with
  | nil => exact ⟨c, l, rfl, h, rfl⟩
  | cons x rest ih =>
    have hf1 : fresh_puts c [x] = true := by
      cases x with
      | put k ct bytes len =>
        simp only [fresh_puts, Bool.and_eq_true] at hf ⊢
        refine ⟨hf.1, ?_⟩
        cases cache_put c k ct bytes len <;> rfl
      | get k =>
        simp only [fresh_puts]
        cases cache_get c k <;> rfl
    rcases agree_step c l h x hf1 with ⟨c1, l1, e1, h1, hm1⟩
    have hf2 : fresh_puts c1 rest = true := by
      cases x with
      | put k ct bytes len =>
        simp only [step] at e1
        simp only [fresh_puts, Bool.and_eq_true, e1] at hf
        exact hf.2
      | get k =>
        simp only [step] at e1
        cases hg : cache_get c k with
        | none => simp [hg] at e1
        | some r =>
          simp only [hg, Option.map_some', Option.some.injEq] at e1
          simp only [fresh_puts, hg] at hf
          rw [← e1]
          exact hf
    rcases ih c1 l1 h1 hf2 with ⟨c2, l2, e2, h2, hm2⟩
    exact ⟨c2, l2, by simp [run, e1, e2], h2, hm2.trans hm1⟩

theorem run_append (c : cache) (xs ys : List call) :
    run c (xs ++ ys) = (run c xs).bind (fun c1 => run c1 ys) := by
  induction xs generalizing c with
  | nil => rfl
  | cons x rest ih =>
    simp only [List.cons_append, run]
    cases step c x with
    | none => rfl
    | some c1 => simp [ih]

theorem agree_miss {c : cache} {l : List Nat} (h : agree c l) {k : String}
    (hk : k ∉ list_keys c) : hashtable_get c.index k = none := by
  cases hg : hashtable_get c.index k with
  | none => rfl
  | some a => exact absurd ((agree_mem_keys h k).mpr ⟨a, hg⟩) hk

theorem agree_get_miss {c : cache} {l : List Nat} (h : agree c l) {k : String}
    (hk : k ∉ list_keys c) : (cache_get c k).map Prod.snd = some none := by
  rw [cache_get_miss c k (agree_miss h hk)]
  rfl

theorem agree_get_hit {c : cache} {l : List Nat} (h : agree c l) {k : String}
    (hk : k ∈ list_keys c) : ∃ e, (cache_get c k).map Prod.snd = some (some e) := by
  rcases (agree_mem_keys h k).mp hk with ⟨a, ha⟩
  rcases agree_get c l h k a ha with ⟨c1, l1, e1, _⟩
  exact ⟨a, by rw [e1]; rfl⟩

theorem agree_puts (items : List (String × String × List byte × Int)) (c : cache)
    (l : List Nat) (h : agree c l) (hnd : (items.map Prod.fst).Nodup)
    (hdis : ∀ i ∈ items, i.1 ∉ list_keys c)
    (hroom : c.cur_size + items.length ≤ c.max_size) :
    ∃ c1 l1, run c (items.map put_call) = some c1 ∧ agree c1 l1 ∧
      c1.max_size = c.max_size ∧ c1.cur_size = c.cur_size + items.length ∧
      list_keys c1 = (items.map Prod.fst).reverse ++ list_keys c := by
  induction items generalizing c l with
  | nil => exact ⟨c, l, rfl, h, rfl, by simp, by simp⟩
  | cons i rest ih =>
    rw [List.map_cons, List.nodup_cons] at hnd
    simp only [List.length_cons, Nat.cast_add, Nat.cast_one] at hroom
    have hlt : c.cur_size < c.max_size := by omega
    have hki := agree_miss h (hdis i (List.mem_cons_self _ _))
    rcases agree_put c l h i.1 i.2.1 i.2.2.1 i.2.2.2 hki with ⟨c1, l1, e1, h1, hm1, hs1, hk1⟩
    rw [if_pos hlt] at hk1
    have hs1' : c1.cur_size = c.cur_size + 1 := by
      rw [hs1]
      omega
    have hdis1 : ∀ j ∈ rest, j.1 ∉ list_keys c1 := by
      intro j hj hmem
      rw [hk1] at hmem
      rcases List.mem_cons.mp hmem with hmem | hmem
      · exact hnd.1 (List.mem_map.mpr ⟨j, hj, hmem⟩)
      · exact hdis j (List.mem_cons_of_mem _ hj) hmem
    rcases ih c1 l1 h1 hnd.2 hdis1 (by rw [hs1', hm1]; omega) with
      ⟨c2, l2, e2, h2, hm2, hs2, hk2⟩
    refine ⟨c2, l2, ?_, h2, hm2.trans hm1, ?_, ?_⟩
    · have : step c (put_call i) = some c1 := e1
      simp [run, this, e2]
    · rw [hs2, hs1']
      simp only [List.length_cons, Nat.cast_add, Nat.cast_one]
      omega
    · rw [hk2, hk1]
      simp

theorem list_keys_create (max_size hashsize : Int) :
    list_keys (cache_create max_size hashsize) = [] := by
  rfl

theorem keys_after_promote (k1 k2 : String) (rk : List String)
    (hnd : (k1 :: k2 :: rk).Nodup) :
    (k1 :: ((k1 :: k2 :: rk).reverse ++ []).erase k1).dropLast = k1 :: rk.reverse := by
  have h1 : k1 ∉ rk.reverse ++ [k2] := by
    rw [List.nodup_cons] at hnd
    intro hm
    apply hnd.1
    rcases List.mem_append.mp hm with hm | hm
    · exact List.mem_cons_of_mem _ (List.mem_reverse.mp hm)
    · rw [List.mem_singleton.mp hm]
      exact List.mem_cons_self _ _
  have h2 : (k1 :: k2 :: rk).reverse ++ [] = (rk.reverse ++ [k2]) ++ [k1] := by simp
  rw [h2, List.erase_append_right _ h1]
  have h3 : k1 :: (rk.reverse ++ [k2] ++ [k1].erase k1) = (k1 :: rk.reverse) ++ [k2] := by simp
  rw [h3, List.dropLast_concat]

theorem reachable_inv {c : cache} (h : reachable c) : ∃ l, inv c l := by
  rcases h with ⟨max_size, hashsize, calls, hm, hrun⟩
  rcases run_inv calls _ [] (inv_create max_size hashsize hm) with ⟨c1, l1, e1, h1, _⟩
  rw [hrun] at e1
  cases e1
  exact ⟨l1, h1⟩

/-- C1, capacity invariant: on a cache created with `max_size ≥ 1`, whatever
the sequence of `cache_put` and `cache_get` calls, after each call (after the
first `n` calls, for every `n`) the call has returned and
`0 ≤ cur_size ≤ max_size`, `max_size` being the capacity given at creation. -/
theorem capacity_invariant (max_size hashsize : Int) (calls : List call) (n : Nat)
    (h : 1 ≤ max_size) :
    ∃ c, run (cache_create max_size hashsize) (calls.take n) = some c ∧
      c.max_size = max_size ∧ 0 ≤ c.cur_size ∧ c.cur_size ≤ c.max_size := by
  rcases run_inv (calls.take n) _ [] (inv_create max_size hashsize h) with ⟨c1, l1, e1, h1, hm⟩
  refine ⟨c1, e1, hm, ?_, h1.size_le⟩
  rw [h1.size_eq]
  exact Int.natCast_nonneg _

theorem capacity_invariant_witness :
    (1 : Int) ≤ 2 ∧ ∃ c, run (cache_create 2 0)
        ([call.put "/a" "text/html" [1, 2] 2, call.put "/b" "text/html" [] 0,
          call.put "/a" "text/plain" [3] 1, call.get "/b",
          call.put "/c" "text/plain" [4] 1].take 5) = some c ∧
      c.max_size = 2 ∧ 0 ≤ c.cur_size ∧ c.cur_size ≤ c.max_size :=
  ⟨by decide, capacity_invariant 2 0 _ 5 (by decide)⟩

/-- C2 as amended, round trip: in a reachable state, when the call does not
evict an entry whose key is `k` (the cache is not full, or the entry at the
tail has another key), `cache_put` of `k` with a payload of `len` bytes,
`len = 0` included, followed at once by `cache_get` of `k` returns a present
entry with the content type, the bytes and the length that were put. -/
theorem round_trip (c : cache) (k ct : String) (bytes : List byte) (len : Int)
    (hr : reachable c) (hlen : len = bytes.length)
    (hev : c.cur_size = c.max_size → c.tail.bind (key_at c) ≠ some k) :
    ∃ c1 c2 e, cache_put c k ct bytes len = some c1 ∧ cache_get c1 k = some (c2, some e) ∧
      read_entry c2 (some e) = some (k, ct, bytes, len) := by
  rcases reachable_inv hr with ⟨l, hi⟩
  rcases cache_put_spec c l hi k ct bytes len with ⟨c1, l1, e1, hi1, _, _, hread, _, hcase⟩
  have hk1 := index_after_put hi hev hcase
  rcases cache_get_hit c1 _ hi1 k _ hk1 with ⟨c2, e2, _, _, _, _, hu2, _⟩
  refine ⟨c1, c2, c.heap.length, e1, e2, ?_⟩
  rw [read_entry_congr hu2, hread, hlen]
  simp

theorem round_trip_witness :
    reachable sample_cache ∧ (0 : Int) = ([] : List byte).length ∧
      (sample_cache.cur_size = sample_cache.max_size →
        sample_cache.tail.bind (key_at sample_cache) ≠ some "/c") ∧
      ∃ c1 c2 e, cache_put sample_cache "/c" "text/plain" [] 0 = some c1 ∧
        cache_get c1 "/c" = some (c2, some e) ∧
        read_entry c2 (some e) = some ("/c", "text/plain", [], 0) :=
  ⟨sample_cache_reachable, by decide, by decide,
    round_trip sample_cache "/c" "text/plain" [] 0 sample_cache_reachable (by decide)
      (by decide)⟩

/-- C2 as stated fails: on a cache of capacity one that holds `"/a"`, a put
of `"/a"` evicts the old entry and with it the key from the index, so the
`cache_get` that follows at once finds nothing. -/
theorem round_trip_counterexample :
    ((run (cache_create 1 0)
        [call.put "/a" "text/plain" [1] 1, call.put "/a" "text/plain" [2] 1]).bind
      (fun c => cache_get c "/a")).map Prod.snd = some none := by
  decide

/-- C3 as amended, recency correctness: on a new cache whose capacity is the
number `n ≥ 2` of items, after `cache_put` of the items with pairwise distinct
keys `k1, k2, ...`, then `cache_get` of `k1`, then `cache_put` of one more
item with a further key, the entry evicted is the one of `k2` and not the one
of `k1`: `cache_get` of `k2` returns `NULL` and `cache_get` of `k1` returns an
entry. -/
theorem recency_correctness (hashsize : Int) (i1 i2 inew : String × String × List byte × Int)
    (rest : List (String × String × List byte × Int))
    (hnd : ((i1 :: i2 :: rest).map Prod.fst ++ [inew.1]).Nodup) :
    ∃ c, run (cache_create ((i1 :: i2 :: rest).length : Nat) hashsize)
        ((i1 :: i2 :: rest).map put_call ++ [call.get i1.1, put_call inew]) = some c ∧
      (cache_get c i2.1).map Prod.snd = some none ∧
      ∃ e, (cache_get c i1.1).map Prod.snd = some (some e) := by
  have hn : (1 : Int) ≤ ((i1 :: i2 :: rest).length : Nat) := by
    simp only [List.length_cons]
    push_cast
    omega
  have hnd1 : ((i1 :: i2 :: rest).map Prod.fst).Nodup := (List.nodup_append.mp hnd).1
  have hnew : inew.1 ∉ (i1 :: i2 :: rest).map Prod.fst := by
    intro hm
    exact (List.nodup_append.mp hnd).2.2 hm (List.mem_singleton_self _)
  rcases agree_puts (i1 :: i2 :: rest) _ [] (agree_create _ hashsize hn) hnd1
      (by intro i _; rw [list_keys_create]; simp)
      (by simp [cache_create]) with ⟨c1, l1, e1, h1, hm1, hs1, hk1⟩
  rw [list_keys_create] at hk1
  have hfull1 : c1.cur_size = c1.max_size := by
    rw [hs1, hm1]
    simp [cache_create]
  have hk1mem : i1.1 ∈ list_keys c1 := by
    rw [hk1]
    simp
  rcases (agree_mem_keys h1 i1.1).mp hk1mem with ⟨a, ha⟩
  rcases agree_get c1 l1 h1 i1.1 a ha with ⟨c2, l2, e2, h2, hm2, hs2, hk2⟩
  have hnew2 : inew.1 ∉ list_keys c2 := by
    rw [hk2, hk1]
    intro hm
    rcases List.mem_cons.mp hm with hm | hm
    · apply hnew
      rw [hm]
      simp
    · apply hnew
      have := List.mem_of_mem_erase hm
      rw [List.append_nil, List.mem_reverse] at this
      exact this
  rcases agree_put c2 l2 h2 inew.1 inew.2.1 inew.2.2.1 inew.2.2.2 (agree_miss h2 hnew2) with
    ⟨c3, l3, e3, h3, _, _, hk3⟩
  have hnot : ¬ c2.cur_size < c2.max_size := by
    rw [hs2, hm2, hfull1]
    omega
  rw [if_neg hnot, hk2, hk1] at hk3
  have hcalc := keys_after_promote i1.1 i2.1 (rest.map Prod.fst) (by simpa using hnd1)
  simp only [List.map_cons] at hk3
  rw [hcalc] at hk3
  have hnd2 := hnd1
  simp only [List.map_cons, List.nodup_cons, List.mem_cons, not_or] at hnd2
  have hne2 : i2.1 ≠ inew.1 := by
    intro e
    apply hnew
    rw [← e]
    simp
  refine ⟨c3, ?_, agree_get_miss h3 ?_, agree_get_hit h3 ?_⟩
  · rw [run_append, e1, Option.some_bind]
    have s2 : step c1 (call.get i1.1) = some c2 := by simp [step, e2]
    have s3 : step c2 (put_call inew) = some c3 := e3
    simp [run, s2, s3]
  · rw [hk3]
    simp only [List.mem_cons, List.mem_reverse, not_or]
    exact ⟨hne2, fun e => hnd2.1.1 e.symm, hnd2.2.1⟩
  · rw [hk3]
    simp

theorem recency_correctness_witness :
    ((([("/a", "text/html", [1], 1), ("/b", "text/css", [2], 1), ("/c", "text/plain", [], 0)] :
        List (String × String × List byte × Int)).map Prod.fst) ++ ["/d"]).Nodup ∧
      ∃ c, run (cache_create
            (([("/a", "text/html", [1], 1), ("/b", "text/css", [2], 1),
               ("/c", "text/plain", [], 0)] :
              List (String × String × List byte × Int)).length : Nat) 0)
          (([("/a", "text/html", [1], 1), ("/b", "text/css", [2], 1),
             ("/c", "text/plain", [], 0)] :
              List (String × String × List byte × Int)).map put_call ++
            [call.get "/a", put_call ("/d", "text/plain", [4], 1)]) = some c ∧
        (cache_get c "/b").map Prod.snd = some none ∧
        ∃ e, (cache_get c "/a").map Prod.snd = some (some e) :=
  ⟨by decide,
    recency_correctness 0 ("/a", "text/html", [1], 1) ("/b", "text/css", [2], 1)
      ("/d", "text/plain", [4], 1) [("/c", "text/plain", [], 0)] (by decide)⟩

/-- C3 as stated fails when `n < max_size`: with capacity three, after
`cache_put` of `"/a"` and `"/b"`, `cache_get` of `"/a"` and `cache_put` of
`"/c"`, nothing was evicted and `cache_get` of `"/b"` still returns its
entry. -/
theorem recency_correctness_counterexample :
    ((run (cache_create 3 0)
        [call.put "/a" "text/plain" [1] 1, call.put "/b" "text/plain" [2] 1,
         call.get "/a", call.put "/c" "text/plain" [3] 1]).bind
      (fun c => cache_get c "/b")).map Prod.snd = some (some 1) := by
  decide

/-- C4 as amended, list and index agreement: in every state reached from
`cache_create` with `max_size ≥ 1` by calls in which each `cache_put` is given
a key the index does not map at that time, the entries reached by walking the
list from `head` are exactly the entries reached through the index: the index
maps `k` to `a` exactly when `a` is in the list with key `k`, the entries of
the index are those of the list up to order, there are as many, and the keys
are the same. -/
theorem list_index_agreement (max_size hashsize : Int) (calls : List call) (c : cache)
    (h : 1 ≤ max_size) (hf : fresh_puts (cache_create max_size hashsize) calls = true)
    (hrun : run (cache_create max_size hashsize) calls = some c) :
    (∀ k a, hashtable_get c.index k = some a ↔ a ∈ entries c ∧ key_at c a = some k) ∧
      (c.index.map Prod.snd).Perm (entries c) ∧ c.index.length = (entries c).length ∧
      (index_keys c).Perm (list_keys c) := by
  rcases agree_run calls _ [] (agree_create max_size hashsize h) hf with ⟨c1, l, e1, ha, _⟩
  rw [hrun] at e1
  cases e1
  have hi := ha.1
  have hiff : ∀ k a, hashtable_get c.index k = some a ↔ a ∈ l ∧ key_at c a = some k := by
    intro k a
    constructor
    · exact hi.index_sound k a
    · rintro ⟨hal, hak⟩
      rcases ha.2.1 a hal with ⟨k1, h1, g1⟩
      rw [hak] at h1
      cases h1
      exact g1
  have hmemget : ∀ p ∈ c.index, hashtable_get c.index p.1 = some p.2 := by
    intro p hp
    exact hashtable_mem_get c.index p.1 p.2 ha.2.2 hp
  have hnd : (c.index.map Prod.snd).Nodup := by
    refine List.Nodup.map_on ?_ (List.Nodup.of_map _ ha.2.2)
    intro p hp q hq hpq
    have h1 := (hiff _ _).mp (hmemget p hp)
    have h2 := (hiff _ _).mp (hmemget q hq)
    rw [← hpq, h1.2] at h2
    exact Prod.ext (Option.some.inj h2.2) hpq
  have hperm : (c.index.map Prod.snd).Perm l := by
    rw [List.perm_ext_iff_of_nodup hnd hi.links.1]
    intro a
    constructor
    · intro hm
      rcases List.mem_map.mp hm with ⟨p, hp, rfl⟩
      exact ((hiff _ _).mp (hmemget p hp)).1
    · intro hal
      rcases ha.2.1 a hal with ⟨k1, _, g1⟩
      exact List.mem_map.mpr ⟨(k1, a), hashtable_get_mem _ _ _ g1, rfl⟩
  have hkeys : (c.index.map Prod.snd).filterMap (key_at c) = c.index.map Prod.fst := by
    rw [List.filterMap_map]
    have : c.index.filterMap (key_at c ∘ Prod.snd) =
        c.index.filterMap (fun p => some p.1) := by
      apply List.filterMap_congr
      intro p hp
      exact ((hiff _ _).mp (hmemget p hp)).2
    rw [this]
    exact congrFun (List.filterMap_eq_map Prod.fst) c.index
  rw [entries_eq hi]
  refine ⟨hiff, hperm, ?_, ?_⟩
  · rw [← hperm.length_eq, List.length_map]
  · unfold index_keys list_keys
    rw [entries_eq hi, ← hkeys]
    exact hperm.filterMap _

theorem list_index_agreement_witness :
    (1 : Int) ≤ 2 ∧ fresh_puts (cache_create 2 0) sample_calls = true ∧
      run (cache_create 2 0) sample_calls = some sample_cache ∧
      (∀ k a, hashtable_get sample_cache.index k = some a ↔
        a ∈ entries sample_cache ∧ key_at sample_cache a = some k) ∧
      (sample_cache.index.map Prod.snd).Perm (entries sample_cache) ∧
      sample_cache.index.length = (entries sample_cache).length ∧
      (index_keys sample_cache).Perm (list_keys sample_cache) :=
  ⟨by decide, by decide, by decide,
    list_index_agreement 2 0 sample_calls sample_cache (by decide) (by decide) (by decide)⟩

/-- C4 as stated fails: after two puts of the same key on a cache of capacity
two the list holds two entries, both with the key `"/a"`, and the index holds
one; a third put, of `"/b"`, then evicts the older one and deletes `"/a"` from
the index although an entry with that key is still in the list. -/
theorem list_index_agreement_counterexample :
    (run (cache_create 2 0)
        [call.put "/a" "text/plain" [1] 1, call.put "/a" "text/plain" [2] 1]).map
      (fun c => ((entries c).length, c.index.length, list_keys c, index_keys c)) =
        some (2, 1, ["/a", "/a"], ["/a"]) ∧
    (run (cache_create 2 0)
        [call.put "/a" "text/plain" [1] 1, call.put "/a" "text/plain" [2] 1,
         call.put "/b" "text/plain" [3] 1]).map
      (fun c => (list_keys c, index_keys c)) = some (["/b", "/a"], ["/b"]) := by
  decide

/-- C5, promotion on hit: in a reachable state whose list, head first, is
`entries c`, when the index maps `k` to the entry `e`, `cache_get` returns `e`
and leaves the list equal to `e` followed by the old list with `e` removed;
when `e` is already the head the cache is left as it was. -/
theorem promotion_on_hit (c : cache) (k : String) (e : Nat) (hr : reachable c)
    (hk : hashtable_get c.index k = some e) :
    ∃ c1, cache_get c k = some (c1, some e) ∧ entries c1 = e :: (entries c).erase e ∧
      (c.head = some e → c1 = c ∧ entries c1 = entries c) := by
  rcases reachable_inv hr with ⟨l, hi⟩
  rcases cache_get_hit c l hi k e hk with ⟨c1, e1, hi1, _, _, _, _, hsame⟩
  refine ⟨c1, e1, ?_, ?_⟩
  · rw [entries_eq hi1, entries_eq hi]
  · intro hh
    have : c1 = c := hsame (by rw [← hi.head_eq, hh])
    exact ⟨this, by rw [this]⟩

theorem promotion_on_hit_witness :
    reachable sample_cache ∧ hashtable_get sample_cache.index "/b" = some 1 ∧
      ∃ c1, cache_get sample_cache "/b" = some (c1, some 1) ∧
        entries c1 = 1 :: (entries sample_cache).erase 1 ∧
        (sample_cache.head = some 1 → c1 = sample_cache ∧ entries c1 = entries sample_cache) :=
  ⟨sample_cache_reachable, by decide,
    promotion_on_hit sample_cache "/b" 1 sample_cache_reachable (by decide)⟩

theorem mem_list_keys {c : cache} {l : List Nat} (h : inv c l) {t : Nat} {kt : String}
    (ht : t ∈ l) (hkt : key_at c t = some kt) : kt ∈ list_keys c := by
  unfold list_keys
  rw [entries_eq h]
  exact List.mem_filterMap.mpr ⟨t, ht, hkt⟩

/-- C6, put semantics: in a reachable state with list `entries c`, head
first, for a key `k` that no entry of the list has, `cache_put` returns and
leaves the list equal to the new entry `a` followed by the old list when the
old list is shorter than `max_size`, and to `a` followed by the old list
without its last entry when its length is `max_size`; `cur_size` becomes
`min (length + 1) max_size`, the index maps `k` to `a`, the key of the evicted
entry is no longer in the index, and at most one entry of the old list is
missing from the new one. -/
theorem put_semantics (c : cache) (k ct : String) (bytes : List byte) (len : Int)
    (hr : reachable c) (hk : k ∉ list_keys c) :
    ∃ c1 a, cache_put c k ct bytes len = some c1 ∧ a ∉ entries c ∧ key_at c1 a = some k ∧
      (((entries c).length : Int) < c.max_size → entries c1 = a :: entries c) ∧
      (((entries c).length : Int) = c.max_size → entries c1 = a :: (entries c).dropLast) ∧
      c1.cur_size = min (((entries c).length : Int) + 1) c.max_size ∧
      hashtable_get c1.index k = some a ∧
      (∀ t kt, ((entries c).length : Int) = c.max_size → (entries c).getLast? = some t →
        key_at c t = some kt → hashtable_get c1.index kt = none) ∧
      ((entries c).filter (fun x => decide (x ∉ entries c1))).length ≤ 1 := by
  rcases reachable_inv hr with ⟨l, hi⟩
  rcases cache_put_spec c l hi k ct bytes len with ⟨c1, l1, e1, hi1, hm1, hal, hread, _, hcase⟩
  have hev : c.cur_size = c.max_size → c.tail.bind (key_at c) ≠ some k := by
    intro _ hb
    cases ht : c.tail with
    | none => simp [ht] at hb
    | some t =>
      simp only [ht, Option.some_bind] at hb
      have htl : t ∈ l := by
        apply List.mem_of_getLast?_eq_some
        rw [← hi.tail_eq, ht]
      exact hk (mem_list_keys hi htl hb)
  have hk1 := index_after_put hi hev hcase
  have hkey : key_at c1 c.heap.length = some k := (hi1.index_sound k _ hk1).2
  have hsz := hi.size_eq
  refine ⟨c1, c.heap.length, e1, ?_, hkey, ?_, ?_, ?_, hk1, ?_, ?_⟩ <;>
    rw [entries_eq hi] <;> try rw [entries_eq hi1]
  · exact hal
  · intro hlt
    rcases hcase with ⟨_, hl, _⟩ | ⟨hfull, _⟩
    · rw [hl]
    · omega
  · intro heq
    rcases hcase with ⟨hroom, _⟩ | ⟨_, t, kt, hl, _⟩
    · omega
    · rw [hl]
      simp
  · rw [hi1.size_eq]
    rcases hcase with ⟨hroom, hl, _⟩ | ⟨hfull, t, kt, hl, _⟩
    · rw [hl, List.length_cons]
      push_cast
      omega
    · rw [hl] at hsz
      simp only [List.length_append, List.length_singleton, Nat.cast_add, Nat.cast_one] at hsz
      rw [hl, List.length_cons]
      simp only [List.length_append, List.length_singleton]
      push_cast
      omega
  · intro t kt heq hlast hkt
    rcases hcase with ⟨hroom, _⟩ | ⟨_, t1, kt1, hl, hkt1, hx⟩
    · omega
    · rw [hl, List.getLast?_concat] at hlast
      cases hlast
      rw [hkt] at hkt1
      cases hkt1
      rw [hx, hashtable_get_delete]
      simp
  · rcases hcase with ⟨_, hl, _⟩ | ⟨_, t, kt, hl, _⟩
    · subst hl
      have : l1.filter (fun x => decide (x ∉ c.heap.length :: l1)) = [] := by
        rw [List.filter_eq_nil_iff]
        intro x hx
        simp [hx]
      rw [this]
      simp
    · subst hl
      have : l1.filter (fun x => decide (x ∉ c.heap.length :: l1)) = [] := by
        rw [List.filter_eq_nil_iff]
        intro x hx
        simp [hx]
      rw [List.filter_append, this]
      simp only [List.nil_append]
      exact (List.length_filter_le _ _).trans (by simp)

theorem put_semantics_witness :
    reachable sample_cache ∧ "/c" ∉ list_keys sample_cache ∧
      ∃ c1 a, cache_put sample_cache "/c" "text/css" [9] 1 = some c1 ∧
        a ∉ entries sample_cache ∧ key_at c1 a = some "/c" ∧
        (((entries sample_cache).length : Int) < sample_cache.max_size →
          entries c1 = a :: entries sample_cache) ∧
        (((entries sample_cache).length : Int) = sample_cache.max_size →
          entries c1 = a :: (entries sample_cache).dropLast) ∧
        c1.cur_size = min (((entries sample_cache).length : Int) + 1) sample_cache.max_size ∧
        hashtable_get c1.index "/c" = some a ∧
        (∀ t kt, ((entries sample_cache).length : Int) = sample_cache.max_size →
          (entries sample_cache).getLast? = some t →
          key_at sample_cache t = some kt → hashtable_get c1.index kt = none) ∧
        ((entries sample_cache).filter (fun x => decide (x ∉ entries c1))).length ≤ 1 :=
  ⟨sample_cache_reachable, by decide,
    put_semantics sample_cache "/c" "text/css" [9] 1 sample_cache_reachable (by decide)⟩

/-- C7, eviction order: on a new cache with `max_size = 2`, after `cache_put`
of three items with pairwise distinct keys `a`, `b`, `c` in this order,
`cache_get` of `a` returns `NULL` and `cache_get` of `b` and of `c` both
return an entry; the list holds `c` then `b`. -/
theorem eviction_order (hashsize : Int) (ia ib ic : String × String × List byte × Int)
    (hab : ia.1 ≠ ib.1) (hac : ia.1 ≠ ic.1) (hbc : ib.1 ≠ ic.1) :
    ∃ c, run (cache_create 2 hashsize) [put_call ia, put_call ib, put_call ic] = some c ∧
      (cache_get c ia.1).map Prod.snd = some none ∧
      (∃ e, (cache_get c ib.1).map Prod.snd = some (some e)) ∧
      (∃ e, (cache_get c ic.1).map Prod.snd = some (some e)) ∧
      list_keys c = [ic.1, ib.1] := by
  rcases agree_puts [ia, ib] _ [] (agree_create 2 hashsize (by decide)) (by simp [hab])
      (by intro i _; rw [list_keys_create]; simp)
      (by simp [cache_create]) with ⟨c1, l1, e1, h1, hm1, hs1, hk1⟩
  rw [list_keys_create] at hk1
  simp only [List.map_cons, List.map_nil, List.reverse_cons, List.reverse_nil, List.nil_append,
    List.cons_append, List.append_nil] at hk1
  have hnew : ic.1 ∉ list_keys c1 := by
    rw [hk1]
    simp only [List.mem_cons, List.mem_singleton, not_or, List.not_mem_nil, or_false]
    exact ⟨fun e => hbc e.symm, fun e => hac e.symm⟩
  rcases agree_put c1 l1 h1 ic.1 ic.2.1 ic.2.2.1 ic.2.2.2 (agree_miss h1 hnew) with
    ⟨c2, l2, e2, h2, _, _, hk2⟩
  have hnot : ¬ c1.cur_size < c1.max_size := by
    rw [hs1, hm1]
    simp [cache_create]
  rw [if_neg hnot, hk1] at hk2
  simp only [List.dropLast_cons₂, List.dropLast_single] at hk2
  refine ⟨c2, ?_, agree_get_miss h2 ?_, agree_get_hit h2 ?_, agree_get_hit h2 ?_, hk2⟩
  · have e1' : run (cache_create 2 hashsize) ([put_call ia, put_call ib] ++ [put_call ic]) =
        some c2 := by
      rw [run_append]
      simp only [List.map_cons, List.map_nil] at e1
      rw [e1, Option.some_bind]
      have s2 : step c1 (put_call ic) = some c2 := e2
      simp [run, s2]
    simpa using e1'
  · rw [hk2]
    simp only [List.mem_cons, List.mem_singleton, not_or, List.not_mem_nil, or_false]
    exact ⟨hac, hab⟩
  · rw [hk2]
    simp
  · rw [hk2]
    simp

theorem eviction_order_witness :
    "/a" ≠ "/b" ∧ "/a" ≠ "/c" ∧ "/b" ≠ "/c" ∧
      ∃ c, run (cache_create 2 0)
          [put_call ("/a", "text/html", [1], 1), put_call ("/b", "text/html", [2, 3], 2),
           put_call ("/c", "text/plain", [], 0)] = some c ∧
        (cache_get c "/a").map Prod.snd = some none ∧
        (∃ e, (cache_get c "/b").map Prod.snd = some (some e)) ∧
        (∃ e, (cache_get c "/c").map Prod.snd = some (some e)) ∧
        list_keys c = ["/c", "/b"] :=
  ⟨by decide, by decide, by decide,
    eviction_order 0 ("/a", "text/html", [1], 1) ("/b", "text/html", [2, 3], 2)
      ("/c", "text/plain", [], 0) (by decide) (by decide) (by decide)⟩

/-- C8 as amended, duplicate-key put: in a reachable state where the index
maps `k` to the entry `e`, when the call does not evict an entry whose key is
`k` (the cache is not full, or the entry at the tail has another key),
`cache_put` of `k` inserts a brand-new entry `a` at the head, the index maps
`k` to `a`, a following `cache_get` of `k` returns `a` with the payload just
put, and the previous entry `e` is still in the list, with the key `k`, and
counted in `cur_size`. -/
theorem duplicate_key_put (c : cache) (k ct : String) (bytes : List byte) (len : Int)
    (e : Nat) (hr : reachable c) (hk : hashtable_get c.index k = some e)
    (hev : c.cur_size = c.max_size → c.tail.bind (key_at c) ≠ some k) :
    ∃ c1 a, cache_put c k ct bytes len = some c1 ∧ a ∉ entries c ∧
      (entries c1).head? = some a ∧ c1.head = some a ∧
      hashtable_get c1.index k = some a ∧
      (∃ c2, cache_get c1 k = some (c2, some a) ∧
        read_entry c2 (some a) = some (k, ct, bytes.take len.toNat, len)) ∧
      e ≠ a ∧ e ∈ entries c1 ∧ key_at c1 e = some k ∧
      c1.cur_size = (entries c1).length := by
  rcases reachable_inv hr with ⟨l, hi⟩
  rcases cache_put_spec c l hi k ct bytes len with ⟨c1, l1, e1, hi1, _, hal, hread, hkeys, hcase⟩
  have hk1 := index_after_put hi hev hcase
  rcases cache_get_hit c1 _ hi1 k _ hk1 with ⟨c2, e2, _, _, _, _, hu2, _⟩
  rcases hi.index_sound k e hk with ⟨hel, hek⟩
  have hea : e ≠ c.heap.length := fun h => hal (h ▸ hel)
  have hel1 : e ∈ l1 := by
    rcases hcase with ⟨_, hl, _⟩ | ⟨hfull, t, kt, hl, hkt, _⟩
    · rw [hl]
      exact hel
    · subst hl
      have hne := tail_key_ne hi hkt (hev hfull)
      have het : e ≠ t := by
        intro h
        subst h
        rw [hek] at hkt
        exact hne (Option.some.inj hkt)
      simpa [het] using hel
  refine ⟨c1, c.heap.length, e1, by rw [entries_eq hi]; exact hal, by rw [entries_eq hi1]; rfl,
    hi1.head_eq, hk1, ⟨c2, e2, by rw [read_entry_congr hu2, hread]⟩, hea, ?_, ?_, ?_⟩
  · rw [entries_eq hi1]
    exact List.mem_cons_of_mem _ hel1
  · rw [hkeys e hel1]
    exact hek
  · rw [entries_eq hi1]
    exact hi1.size_eq

theorem duplicate_key_put_witness :
    reachable sample_cache ∧ hashtable_get sample_cache.index "/a" = some 0 ∧
      (sample_cache.cur_size = sample_cache.max_size →
        sample_cache.tail.bind (key_at sample_cache) ≠ some "/a") ∧
      ∃ c1 a, cache_put sample_cache "/a" "text/css" [7, 8] 2 = some c1 ∧
        a ∉ entries sample_cache ∧ (entries c1).head? = some a ∧ c1.head = some a ∧
        hashtable_get c1.index "/a" = some a ∧
        (∃ c2, cache_get c1 "/a" = some (c2, some a) ∧
          read_entry c2 (some a) =
            some ("/a", "text/css", ([7, 8] : List byte).take (2 : Int).toNat, 2)) ∧
        0 ≠ a ∧ 0 ∈ entries c1 ∧ key_at c1 0 = some "/a" ∧
        c1.cur_size = (entries c1).length :=
  ⟨sample_cache_reachable, by decide, by decide,
    duplicate_key_put sample_cache "/a" "text/css" [7, 8] 2 0 sample_cache_reachable
      (by decide) (by decide)⟩

/-- C8 as stated fails: on a cache of capacity one that holds `"/a"`, the
index maps `"/a"`, yet after a second put of `"/a"` the first entry is gone
from the list, `cur_size` is one, and the index no longer maps `"/a"`, so the
following `cache_get` returns nothing. -/
theorem duplicate_key_put_counterexample :
    (run (cache_create 1 0) [call.put "/a" "text/plain" [1] 1]).map
        (fun c => hashtable_get c.index "/a") = some (some 0) ∧
      (run (cache_create 1 0)
          [call.put "/a" "text/plain" [1] 1, call.put "/a" "text/plain" [2] 1]).map
        (fun c => (entries c, c.cur_size, hashtable_get c.index "/a",
          (cache_get c "/a").map Prod.snd)) = some ([1], 1, none, some none) := by
  decide

/-- C9, idempotent promotion: in a reachable state, when `cache_get` hits on
`k` and returns the entry `e`, a second `cache_get` on `k` returns `e` again
and leaves the state `c1` reached by the first as it is, so any number of
repeated calls ends in `c1`; `cur_size`, the index and the keys of the list
are those of the state before the first call, and `e` reads the same key,
content type, payload and length before and after. -/
theorem idempotent_promotion (c c1 : cache) (k : String) (e : Nat) (hr : reachable c)
    (hit : cache_get c k = some (c1, some e)) :
    cache_get c1 k = some (c1, some e) ∧
      (∀ n, run c (List.replicate (n + 1) (call.get k)) = some c1) ∧
      c1.cur_size = c.cur_size ∧ c1.index = c.index ∧
      (list_keys c1).Perm (list_keys c) ∧
      read_entry c1 (some e) = read_entry c (some e) ∧ read_entry c (some e) ≠ none := by
  rcases reachable_inv hr with ⟨l, hi⟩
  have hk := cache_get_result hit
  rcases cache_get_hit c l hi k e hk with ⟨c2, e2, hi2, _, hs2, hx2, hu2, _⟩
  rw [hit] at e2
  simp only [Option.some.injEq, Prod.mk.injEq, and_true] at e2
  subst e2
  have hk1 : hashtable_get c1.index k = some e := by rw [hx2, hk]
  rcases cache_get_hit c1 _ hi2 k e hk1 with ⟨c3, e3, _, _, _, _, _, hsame⟩
  have h31 : c3 = c1 := hsame (by simp)
  rw [h31] at e3
  have hem : e ∈ l := (hi.index_sound k e hk).1
  refine ⟨e3, ?_, hs2, hx2, ?_, read_entry_congr hu2 _, ?_⟩
  · have hstep : ∀ m : Nat, run c1 (List.replicate m (call.get k)) = some c1 := by
      intro m
      induction m with
      | zero => rfl
      | succ j ihj => simp [List.replicate_succ, run, step, e3, ihj]
    intro n
    simp [List.replicate_succ, run, step, hit, hstep]
  · unfold list_keys
    rw [entries_eq hi2, entries_eq hi]
    have hkey : ∀ x, key_at c1 x = key_at c x := key_at_congr hu2
    have hf : key_at c1 = key_at c := funext hkey
    rw [hf]
    exact (List.perm_cons_erase hem).symm.filterMap _
  · rcases hi.links.2 e hem with ⟨b, hb, hbl, _⟩
    simp [read_entry, deref, hb, hbl]

theorem idempotent_promotion_witness :
    reachable sample_cache ∧ cache_get sample_cache "/b" = some (sample_hit, some 1) ∧
      cache_get sample_hit "/b" = some (sample_hit, some 1) ∧
      (∀ n, run sample_cache (List.replicate (n + 1) (call.get "/b")) = some sample_hit) ∧
      sample_hit.cur_size = sample_cache.cur_size ∧ sample_hit.index = sample_cache.index ∧
      (list_keys sample_hit).Perm (list_keys sample_cache) ∧
      read_entry sample_hit (some 1) = read_entry sample_cache (some 1) ∧
      read_entry sample_cache (some 1) ≠ none :=
  ⟨sample_cache_reachable, by decide,
    idempotent_promotion sample_cache sample_hit "/b" 1 sample_cache_reachable (by decide)⟩

/-- C10, miss behaviour: for every cache state and every key the index does
not map, `cache_get` returns `NULL` and the state it leaves is the state it
was given: `cur_size`, `head`, `tail`, the list order, the index and the
entries in memory are all as before. -/
theorem miss_behaviour (c : cache) (k : String) (hk : hashtable_get c.index k = none) :
    ∃ c1, cache_get c k = some (c1, none) ∧ c1.cur_size = c.cur_size ∧ c1.head = c.head ∧
      c1.tail = c.tail ∧ entries c1 = entries c ∧ c1.index = c.index ∧ c1.heap = c.heap ∧
      c1 = c := by
  refine ⟨c, ?_, rfl, rfl, rfl, rfl, rfl, rfl, rfl⟩
  unfold cache_get
  rw [hk]
  rfl

theorem miss_behaviour_witness :
    hashtable_get sample_cache.index "/zzz" = none ∧
      ∃ c1, cache_get sample_cache "/zzz" = some (c1, none) ∧
        c1.cur_size = sample_cache.cur_size ∧ c1.head = sample_cache.head ∧
        c1.tail = sample_cache.tail ∧ entries c1 = entries sample_cache ∧
        c1.index = sample_cache.index ∧ c1.heap = sample_cache.heap ∧ c1 = sample_cache :=
  ⟨by decide, miss_behaviour sample_cache "/zzz" (by decide)⟩

theorem entries_of_linked {c : cache} {l : List Nat} (hl : linked c.heap l)
    (hh : c.head = l.head?) : entries c = l := by
  unfold entries
  have hh2 : c.head = head_or l none := by
    rw [hh]
    cases l <;> rfl
  rw [hh2]
  exact walk_next_linked c.heap [] l (by simpa using hl) _ (linked_length_le hl)

theorem walk_next_more (heap : List block) (l : List Nat) (h : linked heap l)
    (fuel : Nat) (hf : heap.length ≤ fuel) : walk_next heap fuel (head_or l none) = l :=
  walk_next_linked heap [] l (by simpa using h) fuel ((linked_length_le h).trans hf)

theorem cache_put_loop (c : cache) (path content_type : String) (content : List byte)
    (content_length : Int) :
    cache_put c path content_type content content_length =
      (put_before_loop c path content_type content content_length).bind
        (fun c3 => evict_loop (c3.cur_size - c3.max_size).toNat c3) := by
  unfold cache_put put_before_loop
  simp only [alloc_entry]
  cases dllist_insert_head
    { c with heap := c.heap ++ [new_block path content_type content content_length] }
    (some c.heap.length) <;> rfl

theorem evict_loop_succ (fuel : Nat) (c : cache) :
    evict_loop (fuel + 1) c =
      if c.cur_size > c.max_size then (evict_round c).bind (evict_loop fuel) else some c := by
  unfold evict_round
  rw [evict_loop]
  by_cases h : c.cur_size > c.max_size
  · simp only [h, if_true]
    cases dllist_remove_tail c with
    | none => rfl
    | some r =>
      rcases r with ⟨c1, c_entry⟩
      simp only [Option.bind_eq_bind, Option.some_bind]
      cases deref c1.heap c_entry with
      | none => rfl
      | some e =>
        simp only [Option.some_bind]
        cases free c1.heap c_entry <;> rfl
  · simp only [h, if_false]

theorem evict_round_size {c c1 : cache} (h : evict_round c = some c1) :
    c1.cur_size = c.cur_size - 1 ∧ c1.max_size = c.max_size := by
  unfold evict_round dllist_remove_tail at h
  simp only [Option.bind_eq_bind, Option.bind_eq_some, Option.pure_def, Option.some.injEq,
    Prod.exists, Prod.mk.injEq] at h
  rcases h with ⟨c2, p, ⟨e, _, h1, _, ⟨hc2, _⟩⟩, e2, _, h2, _, hc1⟩
  subst hc1
  subst hc2
  exact ⟨rfl, rfl⟩

theorem put_before_loop_spec (c : cache) (l : List Nat) (h : inv c l)
    (path content_type : String) (content : List byte) (content_length : Int) :
    ∃ c3, put_before_loop c path content_type content content_length = some c3 ∧
      linked c3.heap (c.heap.length :: l) ∧ c3.head = some c.heap.length ∧
      c3.tail = (c.heap.length :: l).getLast? ∧ c3.max_size = c.max_size ∧
      c3.cur_size = c.cur_size + 1 := by
  have hal : c.heap.length ∉ l := fun hm => Nat.lt_irrefl _ (linked_lt h.links hm)
  have hlive : is_live (c.heap ++ [new_block path content_type content content_length])
      c.heap.length := ⟨_, List.getElem?_concat_length _ _, rfl⟩
  rcases insert_head_linked
      { c with heap := c.heap ++ [new_block path content_type content content_length] }
      l c.heap.length (linked_append h.links _) h.head_eq h.tail_eq hal hlive with
    ⟨c1, e1, hl1, hh1, ht1, hm1, hs1, _, _⟩
  simp only at hm1 hs1
  refine ⟨{ c1 with index := hashtable_put c1.index path c.heap.length,
                    cur_size := c1.cur_size + 1 }, ?_, hl1, hh1, ht1, hm1, by simp [hs1]⟩
  unfold put_before_loop
  simp only [alloc_entry]
  rw [e1]
  rfl

/-- C11, unreachable precondition violation: in every state reached from
`cache_create` with `max_size ≥ 1`, each `cache_put` and each `cache_get`
returns, so none of their dereferences (`tail`, `tail->prev`, `ce->prev`,
`ce->next`) meets `NULL`; `cache_put` is its part before the loop followed by
the eviction loop, and every state on which that loop calls
`dllist_remove_tail` has a list of at least two entries and a tail whose
predecessor can be read; `cache_get` calls `dllist_move_to_head` only on an
entry of the list. -/
theorem no_precondition_violation (c : cache) (hr : reachable c) :
    (∀ path content_type content content_length,
      (∃ c1, cache_put c path content_type content content_length = some c1) ∧
      cache_put c path content_type content content_length =
        (put_before_loop c path content_type content content_length).bind
          (fun c3 => evict_loop (c3.cur_size - c3.max_size).toNat c3) ∧
      ∀ s ∈ remove_tail_calls c path content_type content content_length,
        2 ≤ (entries s).length ∧
        ∃ t e p ep, s.tail = some t ∧ deref s.heap (some t) = some e ∧ e.prev = some p ∧
          deref s.heap (some p) = some ep) ∧
    (∀ k, (∃ r, cache_get c k = some r) ∧
      ∀ s ∈ move_to_head_calls c k,
        ∃ a e, s.2 = some a ∧ a ∈ entries s.1 ∧ deref s.1.heap (some a) = some e) := by
  rcases reachable_inv hr with ⟨l, hi⟩
  constructor
  · intro path content_type content content_length
    rcases cache_put_spec c l hi path content_type content content_length with ⟨c1, _, e1, _⟩
    refine ⟨⟨c1, e1⟩, cache_put_loop c path content_type content content_length, ?_⟩
    rcases put_before_loop_spec c l hi path content_type content content_length with
      ⟨c3, e3, hl3, hh3, ht3, hm3, hs3⟩
    intro s hs
    unfold remove_tail_calls at hs
    rw [e3] at hs
    simp only at hs
    have hsz := hi.size_eq
    have hle := hi.size_le
    have hcap := hi.cap_pos
    by_cases hroom : c.cur_size < c.max_size
    · have hf : (c3.cur_size - c3.max_size).toNat = 0 := by
        rw [hs3, hm3]
        omega
      have hn : ¬ c3.cur_size > c3.max_size := by
        rw [hs3, hm3]
        omega
      rw [hf] at hs
      simp [evict_calls, hn] at hs
    · have hfull : c.cur_size = c.max_size := by omega
      have hf : (c3.cur_size - c3.max_size).toNat = 1 := by
        rw [hs3, hm3, hfull]
        simp
      have hgt : c3.cur_size > c3.max_size := by
        rw [hs3, hm3]
        omega
      rw [hf] at hs
      simp only [evict_calls, hgt, if_true, List.mem_cons] at hs
      have hsc : s = c3 := by
        rcases hs with hs | hs
        · exact hs
        · exfalso
          cases hr3 : evict_round c3 with
          | none => simp [hr3] at hs
          | some c4 =>
            rcases evict_round_size hr3 with ⟨h4s, h4m⟩
            have hn : ¬ c4.cur_size > c4.max_size := by
              rw [h4s, h4m]
              omega
            simp [hr3, hn] at hs
      subst hsc
      rcases List.eq_nil_or_concat l with hnil | ⟨l0, t, hlt⟩
      · subst hnil
        simp at hsz
        omega
      rw [List.concat_eq_append] at hlt
      subst hlt
      have hent : entries s = c.heap.length :: (l0 ++ [t]) := entries_of_linked hl3 (by rw [hh3]; rfl)
      have hl3' : linked s.heap ((c.heap.length :: l0) ++ [t]) := by simpa using hl3
      have hnd := hl3'.1
      have htn : t ∉ c.heap.length :: l0 := by
        intro hm
        exact (List.nodup_append.mp hnd).2.2 hm (List.mem_singleton_self t)
      rcases getLast?_ne_nil (l := c.heap.length :: l0) (by simp) with ⟨p, hp⟩
      have hpm : p ∈ c.heap.length :: l0 := List.mem_of_getLast?_eq_some hp
      rcases hl3'.2 t (by simp) with ⟨bt, hbt, hbtl, hbtp, _⟩
      rcases hl3'.2 p (List.mem_append_left _ hpm) with ⟨bp, hbp, hbpl, _⟩
      refine ⟨by rw [hent]; simp, t, bt.entry, p, bp.entry, ?_, deref_live _ _ _ hbt hbtl, ?_,
        deref_live _ _ _ hbp hbpl⟩
      · rw [ht3]
        have e : c.heap.length :: (l0 ++ [t]) = (c.heap.length :: l0) ++ [t] := rfl
        rw [e, List.getLast?_concat]
      · rw [hbtp, prev_in_append_right _ _ _ _ htn, last_or_eq _ _ hp]
        simp [prev_in]
  · intro k
    cases hk : hashtable_get c.index k with
    | none =>
      refine ⟨⟨_, cache_get_miss c k hk⟩, ?_⟩
      intro s hs
      simp [move_to_head_calls, hk] at hs
    | some a =>
      rcases cache_get_hit c l hi k a hk with ⟨c1, e1, _⟩
      refine ⟨⟨_, e1⟩, ?_⟩
      intro s hs
      simp only [move_to_head_calls, hk, ne_eq, not_false_eq_true, if_true,
        List.mem_singleton, reduceCtorEq] at hs
      subst hs
      rcases hi.index_sound k a hk with ⟨hal, _⟩
      rcases hi.links.2 a hal with ⟨b, hb, hbl, _⟩
      exact ⟨a, b.entry, rfl, by rw [entries_eq hi]; exact hal, deref_live _ _ _ hb hbl⟩

theorem no_precondition_violation_witness :
    reachable sample_cache ∧
      (∀ path content_type content content_length,
        (∃ c1, cache_put sample_cache path content_type content content_length = some c1) ∧
        cache_put sample_cache path content_type content content_length =
          (put_before_loop sample_cache path content_type content content_length).bind
            (fun c3 => evict_loop (c3.cur_size - c3.max_size).toNat c3) ∧
        ∀ s ∈ remove_tail_calls sample_cache path content_type content content_length,
          2 ≤ (entries s).length ∧
          ∃ t e p ep, s.tail = some t ∧ deref s.heap (some t) = some e ∧ e.prev = some p ∧
            deref s.heap (some p) = some ep) ∧
      (∀ k, (∃ r, cache_get sample_cache k = some r) ∧
        ∀ s ∈ move_to_head_calls sample_cache k,
          ∃ a e, s.2 = some a ∧ a ∈ entries s.1 ∧ deref s.1.heap (some a) = some e) :=
  ⟨sample_cache_reachable, no_precondition_violation sample_cache sample_cache_reachable⟩

/-- C12 as amended, construction: `cache_create` makes no check of `max_size`;
for every `max_size`, below one included, it produces an empty cache with
`cur_size = 0`, `head` and `tail` `NULL`, `max_size` stored unchanged and a
new index that maps no key. -/
theorem create_empty (max_size hashsize : Int) :
    (cache_create max_size hashsize).max_size = max_size ∧
      (cache_create max_size hashsize).cur_size = 0 ∧
      (cache_create max_size hashsize).head = none ∧
      (cache_create max_size hashsize).tail = none ∧
      entries (cache_create max_size hashsize) = [] ∧
      index_keys (cache_create max_size hashsize) = [] ∧
      ∀ k, hashtable_get (cache_create max_size hashsize).index k = none := by
  refine ⟨rfl, rfl, rfl, rfl, rfl, rfl, ?_⟩
  intro k
  rfl

/-- C12 as stated fails: `cache_create` with `max_size = 0` is not rejected;
it returns a cache like any other, on which `cache_get` runs and misses. -/
theorem create_empty_counterexample :
    cache_create 0 0 =
        { max_size := 0, cur_size := 0, head := none, tail := none, index := [], heap := [] } ∧
      cache_get (cache_create 0 0) "/a" = some (cache_create 0 0, none) := by
  decide

/-- C13, empty iff no head and tail: in every state reached from
`cache_create` with `max_size ≥ 1` by `cache_put` and `cache_get` calls,
`head` is `NULL` iff `tail` is `NULL` iff `cur_size = 0`. -/
theorem empty_iff_no_head_tail (c : cache) (hr : reachable c) :
    (c.head = none ↔ c.tail = none) ∧ (c.tail = none ↔ c.cur_size = 0) ∧
      (c.head = none ↔ c.cur_size = 0) := by
  rcases reachable_inv hr with ⟨l, hi⟩
  rw [hi.head_eq, hi.tail_eq, hi.size_eq]
  cases l with
  | nil => simp
  | cons a r =>
    rcases getLast?_ne_nil (l := a :: r) (by simp) with ⟨t, ht⟩
    rw [ht]
    simp only [List.head?_cons, List.length_cons]
    refine ⟨by simp, ?_, ?_⟩ <;>
    · constructor
      · intro h
        cases h
      · intro h
        exfalso
        push_cast at h
        omega

theorem empty_iff_no_head_tail_witness :
    reachable sample_cache ∧
      (sample_cache.head = none ↔ sample_cache.tail = none) ∧
      (sample_cache.tail = none ↔ sample_cache.cur_size = 0) ∧
      (sample_cache.head = none ↔ sample_cache.cur_size = 0) :=
  ⟨sample_cache_reachable, empty_iff_no_head_tail sample_cache sample_cache_reachable⟩

/-- C14 fails on the code: on a cache of capacity one, the put of `"/b"`
evicts the entry of `"/a"` with `free`, which releases the record and leaves
its path, content type and payload allocated; `cache_free` afterwards walks
the list, where only `"/b"` is left, so three allocations stay live (the
flags are those of the record, of the path, of the content type and of the
payload).  Without an eviction nothing stays live, and `cache_free` on a new
cache returns. -/
theorem eviction_leaks_buffers :
    ((run (cache_create 1 0)
        [call.put "/a" "text/plain" [1] 1, call.put "/b" "text/plain" [2] 1]).bind
      cache_free).map
        (fun h => h.map (fun b =>
          [b.entry_live, b.path_live, b.content_type_live, b.content_live])) =
      some [[false, true, true, true], [false, false, false, false]] ∧
    ((run (cache_create 1 0)
        [call.put "/a" "text/plain" [1] 1, call.put "/b" "text/plain" [2] 1]).bind
      cache_free).map live_allocations = some 3 ∧
    ((run (cache_create 2 0)
        [call.put "/a" "text/plain" [1] 1, call.put "/b" "text/plain" [2] 1]).bind
      cache_free).map live_allocations = some 0 ∧
    cache_free (cache_create 1 0) = some [] := by
  refine ⟨?_, ?_, ?_, ?_⟩
  · decide
  · decide
  · decide
  · decide

theorem mem_keys_iff_get (ht : hashtable) (k : String) :
    k ∈ ht.map Prod.fst ↔ ∃ v, hashtable_get ht k = some v := by
  induction ht with
  | nil => simp [hashtable_get]
  | cons kv rest ih =>
    rcases kv with ⟨k0, v0⟩
    by_cases h0 : k0 = k
    · subst h0
      simp [hashtable_get]
    · simp only [List.map_cons, List.mem_cons, hashtable_get, h0, if_false]
      rw [← ih]
      constructor
      · rintro (h | h)
        · exact absurd h.symm h0
        · exact h
      · intro h
        exact Or.inr h

theorem filterMap_nodup (f : Nat → Option String) (l : List Nat) (hnd : l.Nodup)
    (hinj : ∀ x ∈ l, ∀ y ∈ l, ∀ k, f x = some k → f y = some k → x = y) :
    (l.filterMap f).Nodup := by
  induction l with
  | nil => simp
  | cons x r ih =>
    rw [List.nodup_cons] at hnd
    have ihr := ih hnd.2 (fun a ha b hb k => hinj a (List.mem_cons_of_mem _ ha) b
      (List.mem_cons_of_mem _ hb) k)
    cases hx : f x with
    | none =>
      rw [List.filterMap_cons_none hx]
      exact ihr
    | some k =>
      rw [List.filterMap_cons_some hx, List.nodup_cons]
      refine ⟨?_, ihr⟩
      intro hm
      rcases List.mem_filterMap.mp hm with ⟨y, hy, hyk⟩
      have := hinj x (List.mem_cons_self _ _) y (List.mem_cons_of_mem _ hy) k hx hyk
      exact hnd.1 (this ▸ hy)

theorem list_keys_nodup {c : cache} {l : List Nat} (h : agree c l) : (list_keys c).Nodup := by
  unfold list_keys
  rw [entries_eq h.1]
  apply filterMap_nodup _ _ h.1.links.1
  intro x hx y hy k hkx hky
  exact agree_key_inj h hx hy hkx hky

theorem list_keys_length {c : cache} {l : List Nat} (h : inv c l) :
    (list_keys c).length = l.length := by
  unfold list_keys
  rw [entries_eq h]
  have hall : ∀ a ∈ l, ∃ k, key_at c a = some k := by
    intro a ha
    rcases h.links.2 a ha with ⟨b, hb, _⟩
    exact ⟨b.entry.path, by simp [key_at, hb]⟩
  clear h
  induction l with
  | nil => rfl
  | cons x r ih =>
    rcases hall x (List.mem_cons_self _ _) with ⟨k, hk⟩
    rw [List.filterMap_cons_some hk, List.length_cons, List.length_cons,
      ih (fun a ha => hall a (List.mem_cons_of_mem _ ha))]

theorem agree_index_keys {c : cache} {l : List Nat} (h : agree c l) (k : String) :
    k ∈ index_keys c ↔ k ∈ list_keys c := by
  unfold index_keys
  rw [mem_keys_iff_get, agree_mem_keys h]

theorem agree_get_file (c : cache) (l : List Nat) (h : agree c l) (k : String)
    (file : Option (String × List byte × Int)) :
    ∃ c1 l1, get_file c k file = some c1 ∧ agree c1 l1 ∧ c1.max_size = c.max_size ∧
      list_keys c1 = lru_ref_step c.max_size (list_keys c) (k, file) := by
  cases hk : hashtable_get c.index k with
  | some a =>
    rcases agree_get c l h k a hk with ⟨c1, l1, e1, h1, hm1, _, hk1⟩
    have hmem : k ∈ list_keys c := (agree_mem_keys h k).mpr ⟨a, hk⟩
    refine ⟨c1, l1, by simp [get_file, e1], h1, hm1, ?_⟩
    rw [hk1]
    simp [lru_ref_step, hmem]
  | none =>
    have hnot : k ∉ list_keys c := by
      intro hm
      rcases (agree_mem_keys h k).mp hm with ⟨a, ha⟩
      rw [hk] at ha
      cases ha
    have eg := cache_get_miss c k hk
    cases file with
    | none =>
      refine ⟨c, l, by simp [get_file, eg], h, rfl, ?_⟩
      simp [lru_ref_step, hnot]
    | some f =>
      rcases f with ⟨mime_type, data, size⟩
      rcases agree_put c l h k mime_type data size hk with ⟨c1, l1, e1, h1, hm1, _, hk1⟩
      refine ⟨c1, l1, by simp [get_file, eg, e1], h1, hm1, ?_⟩
      rw [hk1]
      have hlen : ((list_keys c).length : Int) = c.cur_size := by
        rw [list_keys_length h.1, h.1.size_eq]
      have hle := h.1.size_le
      have hcap := h.1.cap_pos
      simp only [lru_ref_step, hnot, if_false, List.length_cons, Nat.cast_add, Nat.cast_one]
      by_cases hroom : c.cur_size < c.max_size
      · have hn : ¬ ((list_keys c).length : Int) + 1 > c.max_size := by omega
        rw [if_pos hroom, if_neg hn]
      · have hp : ((list_keys c).length : Int) + 1 > c.max_size := by omega
        have hne : list_keys c ≠ [] := by
          intro e
          rw [e] at hlen
          simp at hlen
          omega
        rw [if_neg hroom, if_pos hp, List.dropLast_cons_of_ne_nil hne]

theorem agree_serve (reqs : List (String × Option (String × List byte × Int))) (c : cache)
    (l : List Nat) (h : agree c l) :
    ∃ c1 l1, serve c reqs = some c1 ∧ agree c1 l1 ∧ c1.max_size = c.max_size ∧
      list_keys c1 = reqs.foldl (lru_ref_step c.max_size) (list_keys c) := by
  induction reqs generalizing c l with
  | nil => exact ⟨c, l, rfl, h, rfl, rfl⟩
  | cons r rest ih =>
    rcases agree_get_file c l h r.1 r.2 with ⟨c1, l1, e1, h1, hm1, hk1⟩
    rcases ih c1 l1 h1 with ⟨c2, l2, e2, h2, hm2, hk2⟩
    refine ⟨c2, l2, by simp [serve, e1, e2], h2, hm2.trans hm1, ?_⟩
    rw [hk2, hk1, hm1]
    rfl

/-- C15, refinement of a reference LRU under the discipline of `get_file`: on
a cache created with `max_size ≥ 1`, every sequence of requests served as
`get_file` does, `cache_put` of a key being called only directly after
`cache_get` of that key returned `NULL`, runs to its end; the keys in the list
are then pairwise distinct, the index maps exactly the keys of the list, and
the list of keys, head first, is that of the reference model `lru_ref`; hence
`cache_get` hits on `k` iff `k` is in the list of the reference model. -/
theorem lru_refinement (max_size hashsize : Int)
    (reqs : List (String × Option (String × List byte × Int))) (h : 1 ≤ max_size) :
    ∃ c, serve (cache_create max_size hashsize) reqs = some c ∧
      (list_keys c).Nodup ∧ (∀ k, k ∈ index_keys c ↔ k ∈ list_keys c) ∧
      list_keys c = lru_ref max_size reqs ∧
      ∀ k, (∃ e, (cache_get c k).map Prod.snd = some (some e)) ↔ k ∈ lru_ref max_size reqs := by
  rcases agree_serve reqs _ [] (agree_create max_size hashsize h) with ⟨c, l, e, ha, _, hk⟩
  rw [list_keys_create] at hk
  have hk' : list_keys c = lru_ref max_size reqs := hk
  refine ⟨c, e, list_keys_nodup ha, agree_index_keys ha, hk', ?_⟩
  intro k
  rw [← hk']
  constructor
  · rintro ⟨e1, he1⟩
    by_contra hnot
    rw [agree_get_miss ha hnot] at he1
    cases he1
  · intro hm
    exact agree_get_hit ha hm

theorem lru_refinement_witness :
    (1 : Int) ≤ 2 ∧
      ∃ c, serve (cache_create 2 0)
          [("/a", some ("text/html", [1], 1)), ("/b", none), ("/b", some ("text/css", [], 0)),
           ("/a", none), ("/c", some ("text/plain", [2, 3], 2))] = some c ∧
        (list_keys c).Nodup ∧ (∀ k, k ∈ index_keys c ↔ k ∈ list_keys c) ∧
        list_keys c = lru_ref 2
          [("/a", some ("text/html", [1], 1)), ("/b", none), ("/b", some ("text/css", [], 0)),
           ("/a", none), ("/c", some ("text/plain", [2, 3], 2))] ∧
        ∀ k, (∃ e, (cache_get c k).map Prod.snd = some (some e)) ↔
          k ∈ lru_ref 2
            [("/a", some ("text/html", [1], 1)), ("/b", none),
             ("/b", some ("text/css", [], 0)), ("/a", none),
             ("/c", some ("text/plain", [2, 3], 2))] :=
  ⟨by decide, lru_refinement 2 0 _ (by decide)⟩

/-- C16, no dangling index reference: in every reachable state, puts of a key
that is already there included, when the index maps the key `k` to `a`, the
entry `a` is in the list, it is a record that can be read (not an evicted,
freed one) and its path is `k`. -/
theorem no_dangling_index (c : cache) (k : String) (a : Nat) (hr : reachable c)
    (hk : hashtable_get c.index k = some a) :
    a ∈ entries c ∧ ∃ e, deref c.heap (some a) = some e ∧ e.path = k := by
  rcases reachable_inv hr with ⟨l, hi⟩
  rcases hi.index_sound k a hk with ⟨hal, hak⟩
  rcases hi.links.2 a hal with ⟨b, hb, hbl, _⟩
  refine ⟨by rw [entries_eq hi]; exact hal, b.entry, deref_live _ _ _ hb hbl, ?_⟩
  simpa [key_at, hb] using hak

theorem no_dangling_index_witness :
    reachable sample_cache ∧ hashtable_get sample_cache.index "/b" = some 1 ∧
      1 ∈ entries sample_cache ∧
      ∃ e, deref sample_cache.heap (some 1) = some e ∧ e.path = "/b" :=
  ⟨sample_cache_reachable, by decide,
    no_dangling_index sample_cache "/b" 1 sample_cache_reachable (by decide)⟩

/-- C17 fails on the code: on a list of exactly one entry
`dllist_remove_tail` sets `tail` to the `NULL` predecessor of the old tail and
then writes `tail->next`, a `NULL` dereference; it never touches `head`.  The
list after `cache_put` of `"/a"` on a new cache of capacity one has the one
entry `0`, and the call does not return.  `cache_put` itself makes such a call
on a cache created with `max_size = 0`. -/
theorem remove_tail_single_entry :
    (run (cache_create 1 0) [call.put "/a" "text/plain" [1] 1]).map
        (fun c => (entries c, c.head, c.tail, dllist_remove_tail c)) =
      some ([0], some 0, some 0, none) ∧
    (remove_tail_calls (cache_create 0 0) "/a" "text/plain" [1] 1).map entries = [[0]] ∧
    cache_put (cache_create 0 0) "/a" "text/plain" [1] 1 = none := by
  decide

/-- C18, count matches list: in every reachable state `cur_size` is the
number of entries met by walking the `next` links from `head` until `NULL`;
the walk does reach `NULL`, since with more fuel it meets the same entries. -/
theorem count_matches_list (c : cache) (hr : reachable c) :
    c.cur_size = (entries c).length ∧
      ∀ fuel, c.heap.length ≤ fuel →
        walk_next c.heap fuel c.head = entries c ∧
        c.cur_size = (walk_next c.heap fuel c.head).length := by
  rcases reachable_inv hr with ⟨l, hi⟩
  have he := entries_eq hi
  have hh : c.head = head_or l none := by
    rw [hi.head_eq]
    cases l <;> rfl
  refine ⟨by rw [he]; exact hi.size_eq, ?_⟩
  intro fuel hf
  have hw : walk_next c.heap fuel c.head = l := by
    rw [hh]
    exact walk_next_more c.heap l hi.links fuel hf
  rw [hw, he]
  exact ⟨rfl, hi.size_eq⟩

theorem count_matches_list_witness :
    reachable sample_cache ∧ sample_cache.cur_size = (entries sample_cache).length ∧
      ∀ fuel, sample_cache.heap.length ≤ fuel →
        walk_next sample_cache.heap fuel sample_cache.head = entries sample_cache ∧
        sample_cache.cur_size = (walk_next sample_cache.heap fuel sample_cache.head).length :=
  ⟨sample_cache_reachable, count_matches_list sample_cache sample_cache_reachable⟩

theorem last_or_none (l : List Nat) : last_or l none = l.getLast? := by
  cases h : l.getLast? with
  | none =>
    have : l = [] := List.getLast?_eq_none_iff.mp h
    subst this
    rfl
  | some z => exact last_or_eq l none h

theorem walk_prev_linked (heap : List block) (l1 l2 : List Nat) (h : linked heap (l1 ++ l2))
    (fuel : Nat) (hf : l1.length ≤ fuel) :
    walk_prev heap fuel (last_or l1 none) = l1.reverse := by
  induction l1 using List.reverseRecOn generalizing l2 fuel with
  | nil => cases fuel <;> simp [last_or, walk_prev]
  | append_singleton r a ih =>
    cases fuel with
    | zero => simp at hf
    | succ f =>
      have h2 : linked heap (r ++ (a :: l2)) := by simpa using h
      have hnd := h2.1
      have ha1 : a ∉ r := by
        intro hm
        exact (List.nodup_append.mp hnd).2.2 hm (List.mem_cons_self _ _)
      rcases h2.2 a (by simp) with ⟨b, hb, hbl, hbp, _⟩
      rw [prev_in_append_right _ _ _ _ ha1] at hbp
      simp only [prev_in, if_true] at hbp
      have hlast : last_or (r ++ [a]) none = some a :=
        last_or_eq _ _ (List.getLast?_concat r)
      have := ih (a :: l2) h2 f (by simpa using hf)
      rw [hlast]
      simp only [walk_prev, deref_live _ _ _ hb hbl, hbp, this, List.reverse_append,
        List.reverse_cons, List.reverse_nil, List.nil_append, List.singleton_append]

theorem next_prev_linked {heap : List block} {l : List Nat} (h : linked heap l) {a n : Nat}
    (ha : a ∈ l) (hn : next_in l a none = some n) :
    n ∈ l ∧ prev_in none l n = some a := by
  rcases List.append_of_mem ha with ⟨l1, l2, hl⟩
  subst hl
  have hnd := h.1
  have ha1 : a ∉ l1 := by
    intro hm
    exact (List.nodup_append.mp hnd).2.2 hm (List.mem_cons_self _ _)
  rw [next_in_append_right _ _ _ _ ha1] at hn
  simp only [next_in, if_true] at hn
  cases l2 with
  | nil => simp [head_or] at hn
  | cons z r =>
    simp only [head_or, Option.some.injEq] at hn
    subst hn
    have hz1 : z ∉ l1 := by
      intro hm
      exact (List.nodup_append.mp hnd).2.2 hm (by simp)
    have haz : a ≠ z := by
      intro e
      have h2 := (List.nodup_append.mp hnd).2.1
      rw [List.nodup_cons] at h2
      exact h2.1 (by simp [e])
    refine ⟨by simp, ?_⟩
    rw [prev_in_append_right _ _ _ _ hz1]
    simp [prev_in, haz]

theorem dll_props_of_linked {c : cache} {l : List Nat} (hl : linked c.heap l)
    (hh : c.head = l.head?) (ht : c.tail = l.getLast?) : dll_props c := by
  have he := entries_of_linked hl hh
  refine ⟨?_, ?_, ?_, ?_⟩
  · intro a ha
    rw [hh] at ha
    have ham : a ∈ l := List.mem_of_mem_head? ha
    rcases hl.2 a ham with ⟨b, hb, hbl, hbp, _⟩
    exact ⟨b.entry, deref_live _ _ _ hb hbl, by rw [hbp, prev_in_head _ _ _ ha]⟩
  · intro a ha
    rw [ht] at ha
    have ham : a ∈ l := List.mem_of_getLast?_eq_some ha
    rcases hl.2 a ham with ⟨b, hb, hbl, _, hbn⟩
    exact ⟨b.entry, deref_live _ _ _ hb hbl, by rw [hbn, next_in_last _ _ _ hl.1 ha]⟩
  · intro a ha
    rw [he] at ha
    rcases hl.2 a ha with ⟨b, hb, hbl, _, hbn⟩
    refine ⟨b.entry, deref_live _ _ _ hb hbl, ?_⟩
    intro n hn
    rw [hbn] at hn
    rcases next_prev_linked hl ha hn with ⟨hnm, hnp⟩
    rcases hl.2 n hnm with ⟨bn, hbn1, hbnl, hbnp, _⟩
    exact ⟨bn.entry, deref_live _ _ _ hbn1 hbnl, by rw [hbnp, hnp]⟩
  · rw [he, ht, ← last_or_none]
    exact walk_prev_linked c.heap l [] (by simpa using hl) _ (linked_length_le hl)

theorem move_to_head_list (c : cache) (l : List Nat) (a : Nat) (hl : linked c.heap l)
    (hh : c.head = l.head?) (ht : c.tail = l.getLast?) (ha : a ∈ l) :
    ∃ c1, dllist_move_to_head c (some a) = some c1 ∧ linked c1.heap (a :: l.erase a) ∧
      c1.head = some a ∧ c1.tail = (a :: l.erase a).getLast? := by
  by_cases hhd : l.head? = some a
  · have hca : c.head = some a := by rw [hh, hhd]
    have hla : a :: l.erase a = l := by
      cases l with
      | nil => simp at hhd
      | cons y r =>
        simp only [List.head?_cons, Option.some.injEq] at hhd
        subst hhd
        simp
    rw [hla]
    exact ⟨c, by simp [dllist_move_to_head, hca], hl, hca, ht⟩
  · rcases List.append_of_mem ha with ⟨l1, l2, hl12⟩
    subst hl12
    have hnd := hl.1
    have ha1 : a ∉ l1 := by
      intro hm
      exact (List.nodup_append.mp hnd).2.2 hm (List.mem_cons_self _ _)
    have hne : l1 ≠ [] := by
      intro e
      subst e
      simp at hhd
    have her : (l1 ++ a :: l2).erase a = l1 ++ l2 := by
      rw [List.erase_append_right _ ha1, List.erase_cons_head]
    rcases move_to_head_linked c l1 l2 a hl hh ht hne with ⟨c1, e1, hl1, hh1, ht1, _⟩
    rw [her]
    exact ⟨c1, e1, hl1, hh1, ht1⟩

theorem reachable_well_linked {c : cache} (hr : reachable c) : well_linked c := by
  rcases reachable_inv hr with ⟨l, hi⟩
  exact ⟨l, hi.links, hi.head_eq, hi.tail_eq⟩

/-- C19, doubly-linked well-formedness: every reachable state is well linked,
and in a well-linked state `head->prev` and `tail->next` are `NULL`, every
entry `e` of the list with `e->next` not `NULL` has `e->next->prev = e`, and
the walk along `prev` from `tail` is the reverse of the walk along `next` from
`head`; `dllist_insert_head` (of a live record that is not in the list),
`dllist_move_to_head` (of an entry of the list) and `dllist_remove_tail` (on a
list of at least two entries) return and leave a well-linked state with these
pointer facts, the list being changed as the operation says. -/
theorem doubly_linked_well_formed :
    (∀ c, reachable c → well_linked c ∧ dll_props c) ∧
    (∀ c, well_linked c → dll_props c) ∧
    (∀ c ce, well_linked c → is_live c.heap ce → ce ∉ entries c →
      ∃ c1, dllist_insert_head c (some ce) = some c1 ∧ well_linked c1 ∧ dll_props c1 ∧
        entries c1 = ce :: entries c) ∧
    (∀ c ce, well_linked c → ce ∈ entries c →
      ∃ c1, dllist_move_to_head c (some ce) = some c1 ∧ well_linked c1 ∧ dll_props c1 ∧
        entries c1 = ce :: (entries c).erase ce) ∧
    (∀ c, well_linked c → 2 ≤ (entries c).length →
      ∃ c1 t, dllist_remove_tail c = some (c1, some t) ∧ well_linked c1 ∧ dll_props c1 ∧
        (entries c).getLast? = some t ∧ entries c1 = (entries c).dropLast) := by
  have hp : ∀ c, well_linked c → dll_props c := by
    rintro c ⟨l, hl, hh, ht⟩
    exact dll_props_of_linked hl hh ht
  refine ⟨fun c hr => ⟨reachable_well_linked hr, hp c (reachable_well_linked hr)⟩, hp, ?_, ?_, ?_⟩
  · rintro c ce ⟨l, hl, hh, ht⟩ hlive hnot
    rw [entries_of_linked hl hh] at hnot ⊢
    rcases insert_head_linked c l ce hl hh ht hnot hlive with ⟨c1, e1, hl1, hh1, ht1, _⟩
    have hw : well_linked c1 := ⟨_, hl1, by rw [hh1]; rfl, ht1⟩
    exact ⟨c1, e1, hw, hp c1 hw, entries_of_linked hl1 (by rw [hh1]; rfl)⟩
  · rintro c ce ⟨l, hl, hh, ht⟩ hmem
    rw [entries_of_linked hl hh] at hmem ⊢
    rcases move_to_head_list c l ce hl hh ht hmem with ⟨c1, e1, hl1, hh1, ht1⟩
    have hw : well_linked c1 := ⟨_, hl1, by rw [hh1]; rfl, ht1⟩
    exact ⟨c1, e1, hw, hp c1 hw, entries_of_linked hl1 (by rw [hh1]; rfl)⟩
  · rintro c ⟨l, hl, hh, ht⟩ hlen
    rw [entries_of_linked hl hh] at hlen ⊢
    rcases List.eq_nil_or_concat l with hnil | ⟨l0, t, hlt⟩
    · subst hnil
      simp at hlen
    rw [List.concat_eq_append] at hlt
    subst hlt
    have hne : l0 ≠ [] := by
      intro e
      subst e
      simp at hlen
    have htt : c.tail = some t := by rw [ht, List.getLast?_concat]
    rcases remove_tail_linked c l0 t hl htt hne with ⟨c1, e1, hl1, hh1, ht1, _⟩
    have hh1' : c1.head = l0.head? := by
      rw [hh1, hh]
      cases l0 with
      | nil => exact absurd rfl hne
      | cons y r => rfl
    have hw : well_linked c1 := ⟨_, hl1, hh1', ht1⟩
    exact ⟨c1, t, e1, hw, hp c1 hw, List.getLast?_concat l0, by
      rw [entries_of_linked hl1 hh1', List.dropLast_concat]⟩

theorem doubly_linked_well_formed_witness :
    reachable sample_cache ∧ well_linked sample_cache ∧ dll_props sample_cache ∧
      2 ≤ (entries sample_cache).length ∧
      ∃ c1 t, dllist_remove_tail sample_cache = some (c1, some t) ∧ well_linked c1 ∧
        dll_props c1 ∧ (entries sample_cache).getLast? = some t ∧
        entries c1 = (entries sample_cache).dropLast :=
  ⟨sample_cache_reachable, (doubly_linked_well_formed.1 sample_cache sample_cache_reachable).1,
    (doubly_linked_well_formed.1 sample_cache sample_cache_reachable).2, by decide,
    doubly_linked_well_formed.2.2.2.2 sample_cache
      (doubly_linked_well_formed.1 sample_cache sample_cache_reachable).1 (by decide)⟩

end CWebServer
